import Mathlib

/-!
Verification of the path-mapping / path-recognition core of the
smartssh-smba extension (`src/utils/path-utils.js`, `src/services/file-service.js`).

The JavaScript sources are shallowly embedded: every JS string is a Lean
`String` (manipulated through its character list), JS `null`/`undefined`
results are `Option`, JS exceptions are `Except String`, and the external
collaborators of the resolution pipeline (filesystem, editor, quick-pick UI)
are an explicit record of oracle functions.  Node's `path.join` /
`path.posix.join` / `path.basename` are embedded with their POSIX
(forward-slash) semantics, which is also the separator convention the module
itself normalizes everything to.
-/

namespace SmartSSH

/-! ## Character classes used by the regexes in `path-utils.js` -/

/-- JavaScript `\s` (whitespace) restricted to the ASCII range, which is the
only range the scanned terminal text uses. -/
def isJsSpace (c : Char) : Bool :=
  c = ' ' || c = '\t' || c = '\n' || c = '\x0d' || c = '\x0b' || c = '\x0c'

/-- JavaScript `\d`. -/
def isJsDigit (c : Char) : Bool :=
  '0' ≤ c && c ≤ '9'

/-- JavaScript `\w` (word character), used by the `\b` boundary of the URL
regex. -/
def isJsWord (c : Char) : Bool :=
  ('a' ≤ c && c ≤ 'z') || ('A' ≤ c && c ≤ 'Z') || isJsDigit c || c = '_'

/-- ASCII letter, the `[a-zA-Z]` of the drive-letter regex in
`normalizePath`. -/
def isAsciiLetter (c : Char) : Bool :=
  ('a' ≤ c && c ≤ 'z') || ('A' ≤ c && c ≤ 'Z')

/-- The character class `[^:\s()"']` shared by all four path patterns of
`findPotentialPaths`. -/
def isPathChar (c : Char) : Bool :=
  !(c = ':' || isJsSpace c || c = '(' || c = ')' || c = '"' || c = '\'')

/-! ## `normalizePath` (path-utils.js lines 28-79) -/

/-- One step of the global `replace(/\/+/g, '/')`: collapse every run of
forward slashes to a single slash.  The boolean argument records whether the
previous emitted character was a slash. -/
def collapseSlashesAux : Bool → List Char → List Char
  | _, [] => []
  | prevSlash, c :: rest =>
    if c = '/' then
      if prevSlash then collapseSlashesAux true rest
      else '/' :: collapseSlashesAux true rest
    else c :: collapseSlashesAux false rest

/-- `s.replace(/\/+/g, '/')`. -/
def collapseSlashes (s : List Char) : List Char :=
  collapseSlashesAux false s

/-- `s.replace(/\\/g, '/')`. -/
def replaceBackslashes (s : List Char) : List Char :=
  s.map fun c => if c = '\\' then '/' else c

/-- The trailing `if (!normalized.endsWith('/')) normalized += '/'` step. -/
def ensureTrailingSlash (s : List Char) : List Char :=
  if s.getLast? = some '/' then s else s ++ ['/']

/-- The drive-letter step of `normalizePath`: the regex `^([a-zA-Z]):\\` only
fires when the character after the colon is a backslash; it uppercases the
letter and replaces `X:\` by `X:/` (`substring(3)` keeps the rest intact). -/
def driveLetterFix (s : List Char) : List Char :=
  match s with
  | c :: d :: e :: rest =>
    if isAsciiLetter c = true ∧ d = ':' ∧ e = '\\' then
      c.toUpper :: ':' :: '/' :: rest
    else s
  | _ => s

/-- The slash-collapsing step of `normalizePath`: a leading `//` (network
share, detected with `startsWith('//')`) is preserved and the remainder
(`substring(2)`) collapsed; otherwise the whole string is collapsed. -/
def normSlashes (n2 : List Char) : List Char :=
  if n2.take 2 = ['/', '/'] then '/' :: '/' :: collapseSlashes (n2.drop 2)
  else collapseSlashes n2

/-- `normalizePath` on character lists: empty input is returned unchanged
(the JS function returns `''` for falsy input); otherwise the drive-letter
fix, backslash replacement, slash collapsing (preserving a leading `//` for
network paths) and the trailing-slash guarantee are applied in the order of
the source. -/
def normalizePathL (s : List Char) : List Char :=
  if s = [] then []
  else ensureTrailingSlash (normSlashes (replaceBackslashes (driveLetterFix s)))

/-- `normalizePath` of path-utils.js (string level). -/
def normalizePath (p : String) : String :=
  ⟨normalizePathL p.toList⟩

example : normalizePath "" = "" := by decide
example : normalizePath "C:\\Users\\test" = "C:/Users/test/" := by decide
example : normalizePath "c:\\users\\test" = "C:/users/test/" := by decide
example : normalizePath "/home/user" = "/home/user/" := by decide
example : normalizePath "/home//user///test" = "/home/user/test/" := by decide
example : normalizePath "//server//share" = "//server/share/" := by decide
example : normalizePath "c:/x" = "c:/x/" := by decide

/-! ## Node `path` (POSIX flavour): `join`, `normalize`, `basename` -/

/-- Split a character list on `/`; the result is never empty and empty
groups mark consecutive, leading or trailing separators. -/
def splitSlash : List Char → List (List Char)
  | [] => [[]]
  | c :: rest =>
    if c = '/' then [] :: splitSlash rest
    else
      match splitSlash rest with
      | g :: gs => (c :: g) :: gs
      | [] => [[c]]

/-- Node's `normalizeString` segment resolution: empty and `.` segments are
dropped; `..` pops the previous segment, is kept when there is nothing to pop
in a relative path, and is dropped at the root of an absolute path. -/
def resolveSegsStep (abs : Bool) (res : List (List Char)) (seg : List Char) :
    List (List Char) :=
  if seg = [] || seg = ['.'] then res
  else if seg = ['.', '.'] then
    match res.getLast? with
    | some l => if l = ['.', '.'] then res ++ [seg] else res.dropLast
    | none => if abs then [] else [seg]
  else res ++ [seg]

def resolveSegs (abs : Bool) (raw : List (List Char)) : List (List Char) :=
  raw.foldl (resolveSegsStep abs) []

/-- Reassemble a normalized POSIX path from its resolved body, absoluteness
and trailing-separator flags (the tail of Node's `posix.normalize`). -/
def posixRebuild (abs trail : Bool) (body : List Char) : List Char :=
  if body = [] then
    if abs then ['/'] else if trail then ['.', '/'] else ['.']
  else
    (if abs then '/' :: body else body) ++ (if trail then ['/'] else [])

/-- JS `array.join('/')` on the resolved segments. -/
def joinSegs : List (List Char) → List Char
  | [] => []
  | [g] => g
  | g :: rest => g ++ '/' :: joinSegs rest

/-- Node `path.posix.normalize` on character lists. -/
def posixNormalizeL (s : List Char) : List Char :=
  if s = [] then ['.']
  else
    posixRebuild (s.head? = some '/') (s.getLast? = some '/')
      (joinSegs (resolveSegs (s.head? = some '/') (splitSlash s)))

/-- Node `path.posix.join(a, b)`: empty parts are skipped, the remaining
parts are joined with `/` and the result is normalized (`.` when nothing is
left). -/
def posixJoinL (a b : List Char) : List Char :=
  if a = [] then
    if b = [] then ['.'] else posixNormalizeL b
  else if b = [] then posixNormalizeL a
  else posixNormalizeL (a ++ '/' :: b)

/-- Node `path.basename` (POSIX flavour): trailing separators are ignored
and the last path component is returned. -/
def basenameL (s : List Char) : List Char :=
  ((s.reverse.dropWhile (· = '/')).takeWhile (· ≠ '/')).reverse

def posixJoin (a b : String) : String := ⟨posixJoinL a.toList b.toList⟩

def basename (s : String) : String := ⟨basenameL s.toList⟩

example : posixJoin "C:/Projects/" "file.txt/" = "C:/Projects/file.txt/" := by decide
example : posixJoin "/a/" "../x/" = "/x/" := by decide
example : posixJoin "" "" = "." := by decide
example : basename "/usr/local/bin/app.js" = "app.js" := by decide
example : basename "/a/b/" = "b" := by decide

/-! ## Data model: servers and path mappings -/

/-- One `{localPath, remotePath}` entry of a server's `pathMappings` array
(or its legacy `smbMapping`). -/
structure PathMapping where
  localPath : String
  remotePath : String
deriving DecidableEq, Repr

/-- The slice of a server configuration that the path-utils module reads:
its name, the `pathMappings` array (absent array modelled as `[]`), the
deprecated single `smbMapping` (absent modelled as `none`), and the
`currentWorkingDirectory` string used for relative references (absent or
empty modelled as `""`, which is falsy in JS). -/
structure Server where
  name : String
  pathMappings : List PathMapping
  smbMapping : Option PathMapping
  currentWorkingDirectory : String
deriving DecidableEq, Repr

/-- `getPathMappings` (path-utils.js lines 185-205): concatenates the modern
array with the legacy `smbMapping`, the latter only when both of its fields
are truthy (non-empty). -/
def getPathMappings (server : Server) : List PathMapping :=
  server.pathMappings ++
    match server.smbMapping with
    | some m => if m.localPath ≠ "" && m.remotePath ≠ "" then [m] else []
    | none => []

/-! ## `convertRemotePathToLocal` (lines 213-272) -/

/-- The per-mapping loop of `convertRemotePathToLocal`: the first mapping
whose normalized `remotePath` prefixes the normalized input wins; the local
result is `normalizePath(path.join(localPrefix, relativePath))`. -/
def convertRemoteLoop (nrp : List Char) : List PathMapping → Option String
  | [] => none
  | m :: rest =>
    if (normalizePathL m.remotePath.toList).isPrefixOf nrp then
      some ⟨normalizePathL
        (posixJoinL (normalizePathL m.localPath.toList)
          (nrp.drop (normalizePathL m.remotePath.toList).length))⟩
    else convertRemoteLoop nrp rest

def convertRemotePathToLocal (remotePath : String) (server : Server) :
    Option String :=
  if remotePath = "" then none
  else
    match getPathMappings server with
    | [] => none
    | pms => convertRemoteLoop (normalizePathL remotePath.toList) pms

/-! ## `convertLocalPathToRemote` (lines 280-364) -/

/-- Build the remote path for a matching mapping, following the source step
by step: strip the local prefix, remove leading slashes from the remainder,
strip the trailing slash of the normalized remote prefix, concatenate with a
single `/`, replace backslashes, collapse slash runs globally, and special
case the `//` and `/./` root results. -/
def buildRemote (m : PathMapping) (nlp : List Char) (lpp : List Char) :
    List Char :=
  let relativePath := (nlp.drop lpp.length).dropWhile (· = '/')
  let rpp := normalizePathL m.remotePath.toList
  let rppStripped := if rpp.getLast? = some '/' then rpp.dropLast else rpp
  let r0 := rppStripped ++ '/' :: relativePath
  let r1 := replaceBackslashes r0
  let r2 := collapseSlashes r1
  if r2 = ['/', '/'] || r2 = ['/', '.', '/'] then ['/'] else r2

def convertLocalLoop (nlp : List Char) : List PathMapping → Option String
  | [] => none
  | m :: rest =>
    let lpp := normalizePathL m.localPath.toList
    if lpp.isPrefixOf nlp then some ⟨buildRemote m nlp lpp⟩
    else convertLocalLoop nlp rest

def convertLocalPathToRemote (localPath : String) (server : Server) :
    Option String :=
  if localPath = "" then none
  else
    match getPathMappings server with
    | [] => none
    | pms => convertLocalLoop (normalizePathL localPath.toList) pms

section ConversionExamples

def serverT : Server :=
  ⟨"testServer",
   [⟨"C:/Projects", "/home/user/projects"⟩, ⟨"D:/Data", "/var/data"⟩],
   none, ""⟩

example :
    convertRemotePathToLocal "/home/user/projects/file.txt" serverT =
      some "C:/Projects/file.txt/" := by decide
example : convertRemotePathToLocal "/etc/config" serverT = none := by decide
example :
    convertLocalPathToRemote "C:/Projects/file.txt" serverT =
      some "/home/user/projects/file.txt/" := by decide
example : convertLocalPathToRemote "E:/other/path" serverT = none := by decide

end ConversionExamples

/-! ## `findServerForPath` (lines 375-416) and
`findServerForPathDetailed` (lines 423-509) -/

/-- The inner mapping loop of `findServerForPath`: does any mapping's
normalized `localPath` prefix the normalized file path?  (The JS loop
returns the server at the first hit; the short-circuit disjunction is the
same traversal.) -/
def serverMappingMatches (nfp : List Char) : List PathMapping → Bool
  | [] => false
  | m :: rest =>
    (normalizePathL m.localPath.toList).isPrefixOf nfp ||
      serverMappingMatches nfp rest

/-- The outer server loop of `findServerForPath`: first server (in list
order) with a matching mapping wins. -/
def findServerLoop (nfp : List Char) : List Server → Option Server
  | [] => none
  | s :: rest =>
    if serverMappingMatches nfp (getPathMappings s) then some s
    else findServerLoop nfp rest

/-- `findServerForPath`.  The server list read from
`configLoader.getServerList()` is passed explicitly. -/
def findServerForPath (servers : List Server) (filePath : String) :
    Option Server :=
  if filePath = "" then none
  else if servers = [] then none
  else findServerLoop (normalizePathL filePath.toList) servers

/-- The `{server, mapping}` payload of `findServerForPathDetailed` (the
`details` field only repeats both plus logging data). -/
structure DetailedMatch where
  server : Server
  mapping : PathMapping
deriving DecidableEq, Repr

def findServerDetailedInner (nfp : List Char) (s : Server) :
    List PathMapping → Option DetailedMatch
  | [] => none
  | m :: rest =>
    if (normalizePathL m.localPath.toList).isPrefixOf nfp then some ⟨s, m⟩
    else findServerDetailedInner nfp s rest

def findServerDetailedLoop (nfp : List Char) : List Server → Option DetailedMatch
  | [] => none
  | s :: rest =>
    match findServerDetailedInner nfp s (getPathMappings s) with
    | some d => some d
    | none => findServerDetailedLoop nfp rest

def findServerForPathDetailed (servers : List Server) (filePath : String) :
    Option DetailedMatch :=
  if filePath = "" then none
  else if servers = [] then none
  else findServerDetailedLoop (normalizePathL filePath.toList) servers

section ServerExamples

def serversT : List Server :=
  [⟨"server1", [⟨"C:/Projects/app1", "/home/user/app1"⟩], none, ""⟩,
   ⟨"server2", [⟨"C:/Projects/app2", "/home/user/app2"⟩], none, ""⟩]

example :
    (findServerForPath serversT "C:/Projects/app1/index.js").map Server.name =
      some "server1" := by decide
example : findServerForPath serversT "D:/OtherPath/file.txt" = none := by decide
example : findServerForPath serversT "" = none := by decide
example :
    (findServerForPathDetailed serversT "C:/Projects/app1/index.js").map
        DetailedMatch.server =
      some ⟨"server1", [⟨"C:/Projects/app1", "/home/user/app1"⟩], none, ""⟩ := by
  decide

end ServerExamples

/-! ## `findPotentialPaths` (lines 520-616): regex machinery

Each of the five regexes of the source (URL pre-pass plus the four path
grammars) is embedded as a hand-rolled matcher that follows the regex's
backtracking behaviour at a fixed start position; a JS `exec` loop with the
`g` flag is the leftmost-match scan plus the `lastIndex` advance. -/

/-- One successful regex application: `match[0].length`, capture 1 (the
path), and the raw digit captures 2 and 3. -/
structure PatMatch where
  len : Nat
  path : List Char
  lineStr : Option (List Char)
  colStr : Option (List Char)
deriving DecidableEq, Repr

/-- The two optional `(?::(\d+))?` groups shared by the unix and relative
patterns: each consumes a colon plus a non-empty digit run or nothing.
Returns the two captures and the number of characters consumed. -/
def optLineCol : List Char → Option (List Char) × Option (List Char) × Nat
  | ':' :: t1 =>
    let d1 := t1.takeWhile isJsDigit
    if d1 = [] then (none, none, 0)
    else
      match t1.drop d1.length with
      | ':' :: t2 =>
        let d2 := t2.takeWhile isJsDigit
        if d2 = [] then (some d1, none, d1.length + 1)
        else (some d1, some d2, d1.length + d2.length + 2)
      | _ => (some d1, none, d1.length + 1)
  | _ => (none, none, 0)

/-- Shared tail of the unix and relative patterns: after the mandatory
start sequence `pre`, a non-empty run of path characters, then the optional
`:line:column`. -/
def slashPatternAfter (pre rest : List Char) : Option PatMatch :=
  let run := rest.takeWhile isPathChar
  if run = [] then none
  else
    match optLineCol (rest.drop run.length) with
    | (l, c, extra) => some ⟨pre.length + run.length + extra, pre ++ run, l, c⟩

/-- Pattern 1, `/((?:\/|~\/)[^:\s()"']+)(?::(\d+))?(?::(\d+))?/g`, applied at
one start position (`s` is the suffix of the text there). -/
def unixTry (s : List Char) : Option PatMatch :=
  match s with
  | '/' :: rest => slashPatternAfter ['/'] rest
  | '~' :: '/' :: rest => slashPatternAfter ['~', '/'] rest
  | _ => none

/-- Pattern 4, `/((?:\.{1,2}\/)[^:\s()"']+)(?::(\d+))?(?::(\d+))?/g`
(`\.{1,2}` is greedy; a lone `.` not followed by `/` cannot recover by
shrinking because the next character would have to be `/`). -/
def relativeTry (s : List Char) : Option PatMatch :=
  match s with
  | '.' :: '.' :: '/' :: rest => slashPatternAfter ['.', '.', '/'] rest
  | '.' :: '/' :: rest => slashPatternAfter ['.', '/'] rest
  | _ => none

/-- Body of the cmake pattern after the `(?:^|\s)` anchor: capture 1 is the
maximal run of path characters (its inner optional extension group can
neither extend nor shrink it, since `(` must follow), then
`\((\d+)(?:,(\d+))?\):`. -/
def cmakeBody (t : List Char) : Option PatMatch :=
  let tok := t.takeWhile isPathChar
  if tok = [] then none
  else
    match t.drop tok.length with
    | '(' :: a1 =>
      let d1 := a1.takeWhile isJsDigit
      if d1 = [] then none
      else
        match a1.drop d1.length with
        | ',' :: a3 =>
          let d2 := a3.takeWhile isJsDigit
          if d2 = [] then none
          else
            match a3.drop d2.length with
            | ')' :: ':' :: _ =>
              some ⟨tok.length + d1.length + d2.length + 4, tok, some d1,
                some d2⟩
            | _ => none
        | ')' :: ':' :: _ =>
          some ⟨tok.length + d1.length + 3, tok, some d1, none⟩
        | _ => none
    | _ => none

/-- The make pattern's trailing `(?:\s+(?:error|warning|note):|$)`: returns
the number of characters it consumes.  The `\s+` branch is tried first; at
the end of input only `$` applies. -/
def makeTail (u : List Char) : Option Nat :=
  match u with
  | [] => some 0
  | _ =>
    let ws := u.takeWhile isJsSpace
    if ws = [] then none
    else
      let rem := u.drop ws.length
      if ['e', 'r', 'r', 'o', 'r', ':'].isPrefixOf rem then
        some (ws.length + 6)
      else if ['w', 'a', 'r', 'n', 'i', 'n', 'g', ':'].isPrefixOf rem then
        some (ws.length + 8)
      else if ['n', 'o', 't', 'e', ':'].isPrefixOf rem then
        some (ws.length + 5)
      else none

/-- Body of the make pattern after the anchor: capture 1 is again the
maximal path-character run (its optional `./`/`../` head and extension tail
are inside the run), then `:(\d+)(?::(\d+))?:` and the tail; the optional
column group is greedy and backtracks to the no-column reading when the
required `:` plus tail cannot follow it. -/
def makeBody (t : List Char) : Option PatMatch :=
  let tok := t.takeWhile isPathChar
  if tok = [] then none
  else
    match t.drop tok.length with
    | ':' :: a1 =>
      let d1 := a1.takeWhile isJsDigit
      if d1 = [] then none
      else
        match a1.drop d1.length with
        | ':' :: a3 =>
          let d2 := a3.takeWhile isJsDigit
          let withCol : Option PatMatch :=
            if d2 = [] then none
            else
              match a3.drop d2.length with
              | ':' :: a4 =>
                (makeTail a4).map fun tl =>
                  ⟨tok.length + d1.length + d2.length + 3 + tl, tok, some d1,
                    some d2⟩
              | _ => none
          match withCol with
          | some r => some r
          | none =>
            (makeTail a3).map fun tl =>
              ⟨tok.length + d1.length + 2 + tl, tok, some d1, none⟩
        | _ => none
    | _ => none

/-- Wrap a body with the `(?:^|\s)` anchor: at position 0 the zero-width
`^` alternative is tried first; otherwise (and as fallback at position 0) a
single whitespace character is consumed and counted into `match[0]`. -/
def anchorTry (body : List Char → Option PatMatch) (isStart : Bool)
    (s : List Char) : Option PatMatch :=
  let viaSpace : Option PatMatch :=
    match s with
    | sp :: rest =>
      if isJsSpace sp then
        (body rest).map fun m => { m with len := m.len + 1 }
      else none
    | [] => none
  if isStart then
    match body s with
    | some m => some m
    | none => viaSpace
  else viaSpace

/-- Case-insensitive literal prefix test (the URL regex carries the `i`
flag); `lit` is given in lowercase. -/
def matchCI : List Char → List Char → Bool
  | [], _ => true
  | _ :: _, [] => false
  | l :: lt, c :: ct => c.toLower = l && matchCI lt ct

/-- `[^\s/$.?#]`, the first character after the URL scheme. -/
def urlFirstCharOk (c : Char) : Bool :=
  !(isJsSpace c || c = '/' || c = '$' || c = '.' || c = '?' || c = '#')

/-- JavaScript `.` without the `s` flag: any character except a line
terminator. -/
def urlDotOk (c : Char) : Bool :=
  !(c = '\n' || c = '\x0d' || c = ' ' || c = ' ')

/-- Alternatives of `(?:https?|ftp|file)` in backtracking order (greedy
optional `s` first). -/
def urlSchemes : List (List Char) :=
  [['h', 't', 't', 'p', 's'], ['h', 't', 't', 'p'], ['f', 't', 'p'],
   ['f', 'i', 'l', 'e']]

/-- The URL pre-pass regex
`/(?:\b(?:https?|ftp|file):\/\/|www\.)[^\s/$.?#].[^\s]*/gi` at one start
position; returns the match length.  The two alternation branches cannot
both fire at one position (schemes do not start with `www.`), so committing
to the scheme branch is faithful. -/
def urlTry (prev : Option Char) (s : List Char) : Option Nat :=
  let boundary : Bool :=
    match prev with
    | none => true
    | some c => !isJsWord c
  let branch1 : Option (Nat × List Char) :=
    if boundary then
      urlSchemes.findSome? fun sch =>
        if matchCI sch s then
          match s.drop sch.length with
          | ':' :: '/' :: '/' :: r => some (sch.length + 3, r)
          | _ => none
        else none
    else none
  let branch2 : Option (Nat × List Char) :=
    if matchCI ['w', 'w', 'w', '.'] s then some (4, s.drop 4) else none
  match branch1 <|> branch2 with
  | none => none
  | some (k, r) =>
    match r with
    | c1 :: c2 :: r2 =>
      if urlFirstCharOk c1 && urlDotOk c2 then
        some (k + 2 + (r2.takeWhile fun c => !isJsSpace c).length)
      else none
    | _ => none

/-! ## The `exec` loops -/

/-- One regex occurrence in the whole text. -/
structure RawHit where
  idx : Nat
  pm : PatMatch
deriving DecidableEq, Repr

/-- Leftmost match at or after `pos` (what `exec` does with `lastIndex =
pos`); `fuel` bounds the scan and is supplied large enough to cover the
text. -/
def findFirstFrom (tryAt : Nat → Option PatMatch) : Nat → Nat → Option RawHit
  | 0, _ => none
  | fuel + 1, pos =>
    match tryAt pos with
    | some m => some ⟨pos, m⟩
    | none => findFirstFrom tryAt fuel (pos + 1)

/-- The `while ((match = pattern.exec(text)))` loop: collect successive
matches, continuing at `lastIndex = match.index + match[0].length`.  All
five patterns only produce non-empty matches, so the `pos + 1` guard inside
`max` (needed for termination) never changes the advance. -/
def execAllAux (tryAt : Nat → Option PatMatch) (limit : Nat) :
    Nat → Nat → List RawHit
  | 0, _ => []
  | fuel + 1, pos =>
    match findFirstFrom tryAt (limit + 1 - pos) pos with
    | none => []
    | some h =>
      h :: execAllAux tryAt limit fuel (max (h.idx + h.pm.len) (pos + 1))

def execAll (tryAt : Nat → Option PatMatch) (limit : Nat) : List RawHit :=
  execAllAux tryAt limit (limit + 2) 0

/-- Position-indexed form of each matcher over the whole text. -/
def unixTryAt (text : List Char) (pos : Nat) : Option PatMatch :=
  unixTry (text.drop pos)

def relativeTryAt (text : List Char) (pos : Nat) : Option PatMatch :=
  relativeTry (text.drop pos)

def cmakeTryAt (text : List Char) (pos : Nat) : Option PatMatch :=
  anchorTry cmakeBody (pos = 0) (text.drop pos)

def makeTryAt (text : List Char) (pos : Nat) : Option PatMatch :=
  anchorTry makeBody (pos = 0) (text.drop pos)

def urlTryAt (text : List Char) (pos : Nat) : Option PatMatch :=
  (urlTry (if pos = 0 then none else text.get? (pos - 1))
      (text.drop pos)).map
    fun len => ⟨len, [], none, none⟩

/-- The recorded URL spans (`urlMatches` in the source, kept as ranges
rather than an index set). -/
def findUrlRanges (text : List Char) : List (Nat × Nat) :=
  (execAll (urlTryAt text) text.length).map fun h => (h.idx, h.pm.len)

/-- Is character position `i` inside one of the URL ranges?  (`urlMatches.has(i)`.) -/
def coveredByUrl (ranges : List (Nat × Nat)) (i : Nat) : Bool :=
  ranges.any fun r => r.1 ≤ i && i < r.1 + r.2

/-- The per-match overlap loop `for (i = match.index; i < index + length; i++)`. -/
def overlapsUrl (ranges : List (Nat × Nat)) (idx len : Nat) : Bool :=
  (List.range len).any fun k => coveredByUrl ranges (idx + k)

/-! ## `findPotentialPaths` assembly -/

/-- The `searchInfo` object built for every match with a non-empty file
name. -/
structure SearchInfo where
  fileName : String
  pattern : String
  line : Option Nat
  column : Option Nat
deriving DecidableEq, Repr

/-- One element of the `findPotentialPaths` result array.  `localPath` is
the field later added by `processPathsFromText` (absent, i.e. `none`, in
scanner output). -/
structure PathResult where
  path : String
  startIndex : Nat
  length : Nat
  line : Option Nat
  column : Option Nat
  type : String
  searchInfo : Option SearchInfo
  isUnix : Bool
  isRelative : Bool
  localPath : Option String
deriving DecidableEq, Repr

/-- `parseInt(ds, 10)` on a non-empty digit capture. -/
def digitsToNat (ds : List Char) : Nat :=
  ds.foldl (fun acc c => acc * 10 + (c.toNat - '0'.toNat)) 0

/-- `path.split(/[/\\]/).pop()`: the segment after the last separator of
either kind. -/
def fileNameOf (path : List Char) : List Char :=
  (path.reverse.takeWhile fun c => !(c = '/' || c = '\\')).reverse

/-- Turn one raw regex hit into the result record pushed by the source. -/
def mkPathResult (ty : String) (h : RawHit) : PathResult :=
  let fn := fileNameOf h.pm.path
  let line := h.pm.lineStr.map digitsToNat
  let column := h.pm.colStr.map digitsToNat
  { path := ⟨h.pm.path⟩
    startIndex := h.idx
    length := h.pm.len
    line := line
    column := column
    type := ty
    searchInfo :=
      if fn = [] then none
      else some ⟨⟨fn⟩, ⟨'*' :: '*' :: '/' :: fn⟩, line, column⟩
    isUnix := h.pm.path.take 1 = ['/'] || h.pm.path.take 2 = ['~', '/']
    isRelative :=
      h.pm.path.take 2 = ['.', '/'] || h.pm.path.take 3 = ['.', '.', '/']
    localPath := none }

/-- All hits of one pattern, with URL overlaps discarded (the `continue`
in the source skips only the push — `lastIndex` has already advanced). -/
def patternGroup (text : List Char) (ranges : List (Nat × Nat))
    (ty : String) (tryAt : List Char → Nat → Option PatMatch) :
    List PathResult :=
  ((execAll (tryAt text) text.length).filter fun h =>
      !overlapsUrl ranges h.idx h.pm.len).map
    (mkPathResult ty)

/-- `findPotentialPaths`: URL pre-pass, then the four patterns in source
order; the results of each pattern are appended in match order. -/
def findPotentialPaths (text : String) : List PathResult :=
  patternGroup text.toList (findUrlRanges text.toList) "unix" unixTryAt ++
    patternGroup text.toList (findUrlRanges text.toList) "cmake" cmakeTryAt ++
    patternGroup text.toList (findUrlRanges text.toList) "make" makeTryAt ++
    patternGroup text.toList (findUrlRanges text.toList) "relative"
      relativeTryAt

/-! ## The resolution pipeline (`processPathsFromText`, `openPathFromText`,
file-service.js)

The external collaborators (filesystem, editor, quick pick, commands) are an
explicit record of oracle functions returning `Except String` — an `error`
models a rejected promise.  JS truthiness of possibly-absent strings is
`Option String` plus a non-emptiness check. -/

/-- The collaborators used by the pipeline:
`workspaceRoot` is `vscode.workspace.workspaceFolders?.[0]?.uri.fsPath`;
`fsStat` is `fs.promises.stat` (`ok isDirectory` when the path exists);
`findFiles`, `quickOpen`, `openDocShowAt`, `showQuickPickFiles` are the
editor calls of file-service.js; `showQuickPick`, `explorerView`,
`revealInExplorerCmd`, `openFolderCmd`, `updateWorkspaceFoldersCmd`,
`revealFileInOS` are the VS Code calls of `openPathFromText`. -/
structure Env where
  workspaceRoot : Option String
  fsStat : String → Except String Bool
  findFiles : String → Except String (List String)
  quickOpen : String → Except String Unit
  openDocShowAt : String → Option Nat → Option Nat → Except String Unit
  showQuickPickFiles : List String → Except String (Option String)
  showQuickPick : List String → Except String (Option String)
  explorerView : Except String Unit
  revealInExplorerCmd : String → Except String Unit
  openFolderCmd : String → Bool → Except String Unit
  updateWorkspaceFoldersCmd : String → Except String Unit
  revealFileInOS : String → Except String Unit

/-- file-service.js `checkPathExists`: `stat` success gives
`{exists: true, isDirectory}`; any error is caught and reported as
`{exists: false, isDirectory: false}`. -/
def checkPathExistsFS (env : Env) (p : String) : Bool × Bool :=
  match env.fsStat p with
  | .ok d => (true, d)
  | .error _ => (false, false)

/-- The `try` block of file-service.js `searchAndOpenFile`: find up to five
workspace files matching `**/fileName`; open the single hit, quick-pick
among several, or open the quick-open box when there is none. -/
def searchTryBody (env : Env) (fileName : String) (line column : Option Nat) :
    Except String Unit :=
  match env.findFiles ("**/" ++ fileName) with
  | .error e => .error e
  | .ok files =>
    match files with
    | [] => env.quickOpen fileName
    | [f] => env.openDocShowAt f line column
    | _ =>
      match env.showQuickPickFiles files with
      | .error e => .error e
      | .ok (some f) => env.openDocShowAt f line column
      | .ok none => .ok ()

/-- file-service.js `searchAndOpenFile`: any error inside the body is
caught and retries the quick-open box (which may itself fail). -/
def searchAndOpenFileM (env : Env) (fileName : String)
    (line column : Option Nat) : Except String Unit :=
  match searchTryBody env fileName line column with
  | .ok _ => .ok ()
  | .error _ => env.quickOpen fileName

/-- file-service.js `openFileInEditor`: open and position, catching any
error into a `false` return. -/
def openFileInEditorM (env : Env) (p : String) (line column : Option Nat) :
    Bool :=
  match env.openDocShowAt p line column with
  | .ok _ => true
  | .error _ => false

/-- file-service.js `openFileWithOS`: `revealFileInOS`, catching any error
into a `false` return. -/
def openFileWithOSM (env : Env) (p : String) : Bool :=
  match env.revealFileInOS p with
  | .ok _ => true
  | .error _ => false

/-- `originalPath.replace(/^\.\//, '')` of the relative-path fallback. -/
def stripLeadingDotSlash (p : String) : String :=
  match p.toList with
  | '.' :: '/' :: rest => ⟨rest⟩
  | _ => p

/-- Per-result body of the `processPathsFromText` map: unix paths are
translated remote→local; relative paths are first composed with the
session's current remote working directory and translated, then fall back
to joining with the workspace root; other grammars are translated like unix
paths.  A successful translation is recorded in `localPath`. -/
def processOne (env : Env) (server : Server) (r : PathResult) : PathResult :=
  if r.path = "" then r
  else
    let localPath : Option String :=
      if r.isUnix then convertRemotePathToLocal r.path server
      else if r.isRelative then
        let viaRemote : Option String :=
          if server.currentWorkingDirectory ≠ "" then
            convertRemotePathToLocal
              (posixJoin server.currentWorkingDirectory r.path) server
          else none
        match viaRemote with
        | some lp => some lp
        | none =>
          match env.workspaceRoot with
          | some w =>
            if w ≠ "" then some (posixJoin w (stripLeadingDotSlash r.path))
            else none
          | none => none
      else convertRemotePathToLocal r.path server
    match localPath with
    | some lp => { r with localPath := some lp }
    | none => r

/-- `processPathsFromText` (lines 628-725). -/
def processPathsFromText (env : Env) (text : String) (server : Server) :
    List PathResult :=
  if text = "" then []
  else
    match findPotentialPaths text with
    | [] => []
    | pathResults => pathResults.map (processOne env server)

/-- The result object of `openPathFromText`; absent JS fields are `none`. -/
structure ResolutionResult where
  success : Bool
  reason : Option String := none
  action : Option String := none
  error : Option String := none
  editorSuccess : Option Bool := none
  path : Option PathResult := none
  paths : Option (List PathResult) := none
deriving DecidableEq, Repr

/-- The directory branch of `openPathFromText` (lines 785-928), entered
when the translated path exists and is a directory. -/
def directoryFlow (env : Env) (validPath : PathResult) (lp : String) :
    Except String (ResolutionResult × Option (String × Option Nat × Option Nat)) :=
  let isInWorkspace : Bool :=
    match env.workspaceRoot with
    | some w =>
      w ≠ "" && (normalizePathL w.toList).isPrefixOf (normalizePathL lp.toList)
    | none => false
  if isInWorkspace then
    match env.explorerView with
    | .ok _ =>
      match env.revealInExplorerCmd lp with
      | .ok _ =>
        .ok ({ success := true, action := some "revealInExplorer",
               path := some validPath }, none)
      | .error _ =>
        let _fallback := openFileWithOSM env lp
        .ok ({ success := true, action := some "openDirectoryInOS",
               path := some validPath }, none)
    | .error _ =>
      let _fallback := openFileWithOSM env lp
      .ok ({ success := true, action := some "openDirectoryInOS",
             path := some validPath }, none)
  else
    match env.showQuickPick
        ["在当前窗口打开", "在新窗口打开", "添加到工作区", "在文件浏览器中打开"] with
    | .error e => .error e
    | .ok none =>
      .ok ({ success := false, action := some "cancelled",
             path := some validPath }, none)
    | .ok (some opt) =>
      if opt = "在当前窗口打开" then
        match env.openFolderCmd lp false with
        | .ok _ =>
          .ok ({ success := true, action := some "openFolderInCurrentWindow",
                 path := some validPath }, none)
        | .error e =>
          .ok ({ success := false, error := some e,
                 action := some "openFolderInCurrentWindowFailed",
                 path := some validPath }, none)
      else if opt = "在新窗口打开" then
        match env.openFolderCmd lp true with
        | .ok _ =>
          .ok ({ success := true, action := some "openFolderInNewWindow",
                 path := some validPath }, none)
        | .error e =>
          .ok ({ success := false, error := some e,
                 action := some "openFolderInNewWindowFailed",
                 path := some validPath }, none)
      else if opt = "添加到工作区" then
        match env.updateWorkspaceFoldersCmd lp with
        | .ok _ =>
          match env.explorerView with
          | .ok _ =>
            .ok ({ success := true, action := some "addToWorkspace",
                   path := some validPath }, none)
          | .error e =>
            .ok ({ success := false, error := some e,
                   action := some "addToWorkspaceFailed",
                   path := some validPath }, none)
        | .error e =>
          .ok ({ success := false, error := some e,
                 action := some "addToWorkspaceFailed",
                 path := some validPath }, none)
      else if opt = "在文件浏览器中打开" then
        let _opened := openFileWithOSM env lp
        .ok ({ success := true, action := some "openDirectoryInOS",
               path := some validPath }, none)
      else
        .ok ({ success := true, action := some "defaultAction",
               path := some validPath }, none)

/-- The `try` body of `openPathFromText` (lines 733-950).  The second
component of the pair records the `searchAndOpenFile` invocation (filename,
line, column) when the search fallback runs. -/
def openPathFromTextBody (env : Env) (text : String) (server : Server) :
    Except String (ResolutionResult × Option (String × Option Nat × Option Nat)) :=
  if text = "" then .ok ({ success := false, reason := some "无效参数" }, none)
  else if processPathsFromText env text server = [] then
    .ok ({ success := false, reason := some "未找到有效路径" }, none)
  else
    match (processPathsFromText env text server).find?
        (fun p => p.localPath.isSome) with
    | none =>
      .ok ({ success := false, reason := some "无法转换路径",
             paths := some (processPathsFromText env text server) }, none)
    | some validPath =>
      match checkPathExistsFS env (validPath.localPath.getD "") with
      | (false, _) =>
        match searchAndOpenFileM env (basename validPath.path) validPath.line
            validPath.column with
        | .error e => .error e
        | .ok _ =>
          .ok ({ success := true, action := some "search",
                 path := some validPath },
            some (basename validPath.path, validPath.line, validPath.column))
      | (true, true) => directoryFlow env validPath (validPath.localPath.getD "")
      | (true, false) =>
        let ok := openFileInEditorM env (validPath.localPath.getD "")
          validPath.line validPath.column
        let _osFallback :=
          if ok then true else openFileWithOSM env (validPath.localPath.getD "")
        .ok ({ success := true, action := some "openFile",
               editorSuccess := some ok, path := some validPath }, none)

/-- `openPathFromText`: the body wrapped in the outer `try`/`catch`, which
turns any escaped error into an explicit failure result. -/
def openPathFromText (env : Env) (text : String) (server : Server) :
    ResolutionResult :=
  match openPathFromTextBody env text server with
  | .ok (r, _) => r
  | .error e => { success := false, error := some e }

/-- Both collaborator calls that can escape the outer `try` of
`openPathFromText` behave: the quick-open box (the last resort of the search
fallback) and the directory disambiguation quick pick. -/
def EnvTotal (env : Env) : Prop :=
  (∀ s, env.quickOpen s = Except.ok ()) ∧
    ∀ l, ∃ v, env.showQuickPick l = Except.ok v

/-- A server mapping `C:/w ↔ /u`, used by the concrete pipeline runs. -/
def serverU : Server := ⟨"u", [⟨"C:/w", "/u"⟩], none, ""⟩

/-- An environment in which nothing exists on disk and both the
file search and the quick-open box reject. -/
def envSearchFails : Env :=
  { workspaceRoot := none
    fsStat := fun _ => .error "ENOENT"
    findFiles := fun _ => .error "findFiles failed"
    quickOpen := fun _ => .error "quickOpen failed"
    openDocShowAt := fun _ _ _ => .ok ()
    showQuickPickFiles := fun _ => .ok none
    showQuickPick := fun _ => .ok none
    explorerView := .ok ()
    revealInExplorerCmd := fun _ => .ok ()
    openFolderCmd := fun _ _ => .ok ()
    updateWorkspaceFoldersCmd := fun _ => .ok ()
    revealFileInOS := fun _ => .ok () }

/-- Like `envSearchFails` but with a working (empty) file search and a
working quick-open box. -/
def envSearchOk : Env :=
  { envSearchFails with
    findFiles := fun _ => .ok []
    quickOpen := fun _ => .ok () }

/-- The reference the scanner extracts from `"/u/a.js"`, after translation
by `processPathsFromText` against `serverU`. -/
def vpU : PathResult :=
  { path := "/u/a.js", startIndex := 0, length := 7, line := none,
    column := none, type := "unix",
    searchInfo := some ⟨"a.js", "**/a.js", none, none⟩, isUnix := true,
    isRelative := false, localPath := some "C:/w/a.js/" }

/-! ## Structure of normalized paths

`normalizePath` output is characterized by: no backslashes, a trailing slash,
and no doubled slash apart from a preserved leading `//`.  Conversely, any
string of that shape is a fixed point of `normalizePath`. -/

/-- The non-empty `/`-separated segments of a path. -/
def segsOf (s : List Char) : List (List Char) :=
  (splitSlash s).filter (· ≠ [])


/-- Modelled from the spec (section 4.4 `ConnectionMatcher`): pick, over all
`(connection, mapping)` pairs whose normalized local prefix is a prefix of
the normalized input, the candidate with the longest prefix, ties broken by
earliest declaration order.  This is the rule the claim attributes to
`findServerForPath` / `findServerForPathDetailed`. -/
def connectionBestStep (nfp : List Char) (s : Server)
    (acc : Option (Server × Nat)) (m : PathMapping) : Option (Server × Nat) :=
  if (normalizePathL m.localPath.toList).isPrefixOf nfp then
    match acc with
    | none => some (s, (normalizePathL m.localPath.toList).length)
    | some (s0, len0) =>
      if (normalizePathL m.localPath.toList).length > len0 then
        some (s, (normalizePathL m.localPath.toList).length)
      else some (s0, len0)
  else acc

def findConnectionForLocalPathSpec (servers : List Server)
    (filePath : String) : Option Server :=
  if filePath = "" then none
  else
    (servers.foldl
      (fun acc s =>
        (getPathMappings s).foldl
          (connectionBestStep (normalizePathL filePath.toList) s) acc)
      none).map Prod.fst

def serverProj : Server :=
  ⟨"projects", [⟨"C:/Projects", "/srv/projects"⟩], none, ""⟩

def serverApp : Server :=
  ⟨"app", [⟨"C:/Projects/app", "/srv/app"⟩], none, ""⟩

/-- Does the list contain two adjacent forward slashes? -/
def hasDoubleSlash : List Char → Bool
  | a :: b :: t => (a = '/' && b = '/') || hasDoubleSlash (b :: t)
  | _ => false

/-- Shape invariant of `normalizePath` results (for non-empty input). -/
def NormCanon (s : List Char) : Prop :=
  s.all (· ≠ '\\') = true ∧ s.getLast? = some '/' ∧
    ((∃ t, s = '/' :: '/' :: t ∧ hasDoubleSlash t = false) ∨
      hasDoubleSlash s = false)

lemma collapseSlashesAux_all (p : Char → Bool) :
    ∀ (b : Bool) (s : List Char), s.all p = true →
      (collapseSlashesAux b s).all p = true := by
  intro b s
  induction s generalizing b with
  | nil => intro _; simp [collapseSlashesAux]
  | cons c rest ih =>
    intro h
    simp only [List.all_cons, Bool.and_eq_true] at h
    by_cases hc : c = '/'
    · subst hc
      cases b <;> simp [collapseSlashesAux, ih _ h.2, h.1]
    · simp [collapseSlashesAux, hc, ih _ h.2, h.1]

lemma collapseSlashesAux_true_head :
    ∀ s : List Char, (collapseSlashesAux true s).head? ≠ some '/' := by
  intro s
  induction s with
  | nil => simp [collapseSlashesAux]
  | cons c rest ih =>
    by_cases hc : c = '/'
    · subst hc; simpa [collapseSlashesAux] using ih
    · simp [collapseSlashesAux, hc]

lemma hasDoubleSlash_cons_false {c : Char} {s : List Char}
    (h : hasDoubleSlash (c :: s) = false) : hasDoubleSlash s = false := by
  cases s with
  | nil => simp [hasDoubleSlash]
  | cons d t =>
    simp only [hasDoubleSlash, Bool.or_eq_false_iff] at h
    exact h.2

lemma collapseSlashesAux_no_ds :
    ∀ (s : List Char) (b : Bool),
      hasDoubleSlash (collapseSlashesAux b s) = false := by
  intro s
  induction s with
  | nil => intro b; simp [collapseSlashesAux, hasDoubleSlash]
  | cons c rest ih =>
    intro b
    by_cases hc : c = '/'
    · subst hc
      cases b with
      | true => simpa [collapseSlashesAux] using ih true
      | false =>
        simp only [collapseSlashesAux, if_pos rfl]
        have hhead := collapseSlashesAux_true_head rest
        have htail := ih true
        cases hrec : collapseSlashesAux true rest with
        | nil => simp [hasDoubleSlash]
        | cons d t =>
          rw [hrec] at hhead htail
          simp only [hasDoubleSlash, Bool.or_eq_false_iff]
          refine ⟨?_, htail⟩
          simp only [List.head?] at hhead
          simp only [Bool.and_eq_false_iff]
          right
          simpa [eq_comm] using fun hd => hhead (by rw [hd])
    · cases b with
      | true =>
        simp only [collapseSlashesAux, if_neg hc]
        have := ih false
        cases hrec : collapseSlashesAux false rest with
        | nil => simp [hasDoubleSlash]
        | cons d t =>
          rw [hrec] at this
          simp [hasDoubleSlash, this, hc]
      | false =>
        simp only [collapseSlashesAux, if_neg hc]
        have := ih false
        cases hrec : collapseSlashesAux false rest with
        | nil => simp [hasDoubleSlash]
        | cons d t =>
          rw [hrec] at this
          simp [hasDoubleSlash, this, hc]

lemma collapseSlashesAux_eq_self :
    ∀ s : List Char, hasDoubleSlash s = false →
      collapseSlashesAux false s = s ∧
        (s.head? ≠ some '/' → collapseSlashesAux true s = s) := by
  intro s
  induction s with
  | nil => intro _; exact ⟨rfl, fun _ => rfl⟩
  | cons c rest ih =>
    intro h
    have hrest : hasDoubleSlash rest = false := hasDoubleSlash_cons_false h
    obtain ⟨ih1, ih2⟩ := ih hrest
    by_cases hc : c = '/'
    · subst hc
      have hhead : rest.head? ≠ some '/' := by
        cases rest with
        | nil => simp
        | cons d t =>
          simp only [hasDoubleSlash, Bool.or_eq_false_iff,
            Bool.and_eq_false_iff] at h
          rcases h.1 with h' | h'
          · simp at h'
          · simp only [List.head?, ne_eq, Option.some.injEq]
            intro hd
            rw [hd] at h'
            simp at h'
      constructor
      · simp [collapseSlashesAux, ih2 hhead]
      · intro hcontra; simp at hcontra
    · refine ⟨?_, fun _ => ?_⟩ <;> simp [collapseSlashesAux, hc, ih1]

lemma collapseSlashes_eq_self {s : List Char}
    (h : hasDoubleSlash s = false) : collapseSlashes s = s :=
  (collapseSlashesAux_eq_self s h).1

lemma hasDoubleSlash_concat_slash :
    ∀ s : List Char, hasDoubleSlash s = false → s.getLast? ≠ some '/' →
      hasDoubleSlash (s ++ ['/']) = false := by
  intro s
  induction s with
  | nil => intro _ _; simp [hasDoubleSlash]
  | cons c rest ih =>
    intro h hl
    cases rest with
    | nil =>
      simp only [List.getLast?_singleton, ne_eq, Option.some.injEq] at hl
      simp [hasDoubleSlash, hl]
    | cons d t =>
      have h' := hasDoubleSlash_cons_false h
      have hl' : (d :: t).getLast? ≠ some '/' := by
        simpa [List.getLast?_cons_cons] using hl
      have := ih h' hl'
      simp only [hasDoubleSlash, Bool.or_eq_false_iff] at h ⊢
      exact ⟨h.1, by simpa using this⟩

lemma replaceBackslashes_all (s : List Char) :
    (replaceBackslashes s).all (· ≠ '\\') = true := by
  induction s with
  | nil => simp [replaceBackslashes]
  | cons c rest ih =>
    by_cases hc : c = '\\' <;>
      simpa [replaceBackslashes, hc] using ih

lemma replaceBackslashes_eq_self {s : List Char}
    (h : s.all (· ≠ '\\') = true) : replaceBackslashes s = s := by
  induction s with
  | nil => rfl
  | cons c rest ih =>
    simp only [List.all_cons, Bool.and_eq_true, decide_eq_true_eq] at h
    have hstep :
        replaceBackslashes (c :: rest) =
          (if c = '\\' then '/' else c) :: replaceBackslashes rest := rfl
    rw [hstep, if_neg h.1, ih h.2]

lemma driveLetterFix_eq_self {s : List Char}
    (h : s.all (· ≠ '\\') = true) : driveLetterFix s = s := by
  match s with
  | [] => rfl
  | [c] => rfl
  | [c, d] => rfl
  | c :: d :: e :: rest =>
    have he : e ≠ '\\' := by
      simp only [List.all_cons, Bool.and_eq_true, decide_eq_true_eq] at h
      exact h.2.2.1
    simp only [driveLetterFix]
    rw [if_neg]
    intro hcl
    exact he hcl.2.2

lemma ensureTrailingSlash_getLast (s : List Char) :
    (ensureTrailingSlash s).getLast? = some '/' := by
  unfold ensureTrailingSlash
  split
  · assumption
  · simp

lemma take_two_double_slash {s : List Char} (h : s.take 2 = ['/', '/']) :
    hasDoubleSlash s = true ∧ s = '/' :: '/' :: s.drop 2 := by
  match s with
  | [] => simp at h
  | [a] => simp at h
  | a :: b :: t =>
    simp only [List.take, List.cons.injEq] at h
    obtain ⟨ha, hb, -⟩ := h
    subst ha; subst hb
    exact ⟨by simp [hasDoubleSlash], by simp⟩

lemma all_drop {p : Char → Bool} {s : List Char} (h : s.all p = true)
    (n : ℕ) : (s.drop n).all p = true := by
  rw [List.all_eq_true] at h ⊢
  exact fun c hc => h c (List.drop_subset n s hc)

/-- Ensuring a trailing slash preserves absence of double slashes. -/
lemma ensure_no_ds {m : List Char} (hds : hasDoubleSlash m = false) :
    hasDoubleSlash (ensureTrailingSlash m) = false := by
  unfold ensureTrailingSlash
  split
  · exact hds
  · next hlast => exact hasDoubleSlash_concat_slash m hds hlast

lemma ensure_all {p : Char → Bool} {m : List Char} (hall : m.all p = true)
    (hp : p '/' = true) : (ensureTrailingSlash m).all p = true := by
  unfold ensureTrailingSlash
  split
  · exact hall
  · simp only [List.all_append, Bool.and_eq_true]
    exact ⟨hall, by simp [hp]⟩

/-- Canonically shaped strings are fixed points of `normalizePathL`. -/
lemma normalizePathL_fixed {s : List Char} (h : NormCanon s) :
    normalizePathL s = s := by
  obtain ⟨hbs, hlast, hshape⟩ := h
  have hne : s ≠ [] := by intro he; rw [he] at hlast; simp at hlast
  have hTrail : ensureTrailingSlash s = s := by
    unfold ensureTrailingSlash; rw [if_pos hlast]
  unfold normalizePathL normSlashes
  rw [if_neg hne, driveLetterFix_eq_self hbs, replaceBackslashes_eq_self hbs]
  rcases hshape with ⟨t, hst, hds⟩ | hds
  · have htake : s.take 2 = ['/', '/'] := by rw [hst]; rfl
    have hdrop : s.drop 2 = t := by rw [hst]; rfl
    rw [if_pos htake, hdrop, collapseSlashes_eq_self hds, ← hst, hTrail]
  · have htake : s.take 2 ≠ ['/', '/'] := by
      intro hc
      have hcontra := (take_two_double_slash hc).1
      rw [hcontra] at hds
      exact absurd hds (by decide)
    rw [if_neg htake, collapseSlashes_eq_self hds, hTrail]

/-- Every `normalizePathL` result on non-empty input is canonically
shaped. -/
lemma normalizePathL_canon {s : List Char} (h : s ≠ []) :
    NormCanon (normalizePathL s) := by
  unfold normalizePathL normSlashes
  rw [if_neg h]
  set n2 := replaceBackslashes (driveLetterFix s) with hn2
  have hbs2 : n2.all (· ≠ '\\') = true := replaceBackslashes_all _
  by_cases hdd : n2.take 2 = ['/', '/']
  · simp only [if_pos hdd]
    have hds : hasDoubleSlash (collapseSlashes (n2.drop 2)) = false :=
      collapseSlashesAux_no_ds _ false
    have hall : (collapseSlashes (n2.drop 2)).all (· ≠ '\\') = true :=
      collapseSlashesAux_all _ _ _ (all_drop hbs2 2)
    refine ⟨?_, ensureTrailingSlash_getLast _, ?_⟩
    · apply ensure_all _ (by simp)
      simp only [List.all_cons, Bool.and_eq_true]
      exact ⟨by simp, by simp, hall⟩
    · left
      unfold ensureTrailingSlash
      split
      · exact ⟨collapseSlashes (n2.drop 2), rfl, hds⟩
      · next hlast =>
        refine ⟨collapseSlashes (n2.drop 2) ++ ['/'], by simp, ?_⟩
        apply hasDoubleSlash_concat_slash _ hds
        intro hcon
        apply hlast
        cases hc : collapseSlashes (n2.drop 2) with
        | nil => rw [hc] at hcon; simp at hcon
        | cons x xs =>
          show ('/' :: '/' :: x :: xs).getLast? = some '/'
          rw [List.getLast?_cons_cons, List.getLast?_cons_cons]
          exact hc ▸ hcon
  · simp only [if_neg hdd]
    have hds : hasDoubleSlash (collapseSlashes n2) = false :=
      collapseSlashesAux_no_ds _ false
    have hall : (collapseSlashes n2).all (· ≠ '\\') = true :=
      collapseSlashesAux_all _ _ _ hbs2
    exact ⟨ensure_all hall (by simp), ensureTrailingSlash_getLast _,
      Or.inr (ensure_no_ds hds)⟩

lemma posixRebuild_ne_nil (abs trail : Bool) (body : List Char) :
    posixRebuild abs trail body ≠ [] := by
  unfold posixRebuild
  split
  · split
    · simp
    · split <;> simp
  · next hbody =>
    split <;> simp [hbody]

lemma posixNormalizeL_ne_nil (s : List Char) : posixNormalizeL s ≠ [] := by
  unfold posixNormalizeL
  split
  · simp
  · exact posixRebuild_ne_nil _ _ _

lemma posixJoinL_ne_nil (a b : List Char) : posixJoinL a b ≠ [] := by
  unfold posixJoinL
  split
  · split
    · simp
    · exact posixNormalizeL_ne_nil b
  · split
    · exact posixNormalizeL_ne_nil a
    · exact posixNormalizeL_ne_nil (a ++ '/' :: b)

lemma toList_mk (l : List Char) : (String.mk l).toList = l := rfl

/-- Character-list characterization of `normalizePath` idempotence. -/
lemma normalizePathL_idem (s : List Char) :
    normalizePathL (normalizePathL s) = normalizePathL s := by
  by_cases hs : s = []
  · subst hs; rfl
  · exact normalizePathL_fixed (normalizePathL_canon hs)

lemma isAsciiLetter_ne_backslash {c : Char} (h : isAsciiLetter c = true) :
    c ≠ '\\' := by
  intro hc; rw [hc] at h; exact absurd h (by decide)

lemma isAsciiLetter_ne_slash {c : Char} (h : isAsciiLetter c = true) :
    c ≠ '/' := by
  intro hc; rw [hc] at h; exact absurd h (by decide)

/-- Uppercasing an ASCII letter never produces a path separator. -/
lemma isAsciiLetter_toUpper_ne (c : Char) (h : isAsciiLetter c = true) :
    c.toUpper ≠ '/' ∧ c.toUpper ≠ '\\' := by
  have hc : Char.ofNat c.toNat = c := Char.ofNat_toNat c
  simp only [isAsciiLetter, Bool.or_eq_true, Bool.and_eq_true,
    decide_eq_true_eq] at h
  rw [← hc]
  set n := c.toNat with hn
  rcases h with ⟨h1, h2⟩ | ⟨h1, h2⟩
  · have hb1 : 97 ≤ n := h1
    have hb2 : n ≤ 122 := h2
    interval_cases n <;> exact ⟨by decide, by decide⟩
  · have hb1 : 65 ≤ n := h1
    have hb2 : n ≤ 90 := h2
    interval_cases n <;> exact ⟨by decide, by decide⟩

/-- Collapsing slash runs touches no character other than `/`: the
subsequence of non-slash characters is preserved verbatim. -/
lemma collapseSlashesAux_filter :
    ∀ (b : Bool) (s : List Char),
      (collapseSlashesAux b s).filter (fun c => c ≠ '/') =
        s.filter (fun c => c ≠ '/') := by
  intro b s
  induction s generalizing b with
  | nil => rfl
  | cons c rest ih =>
    simp only [collapseSlashesAux]
    by_cases hc : c = '/'
    · subst hc
      rw [if_pos rfl]
      split
      · rw [ih, List.filter_cons_of_neg (by decide)]
      · rw [List.filter_cons_of_neg (by decide),
          List.filter_cons_of_neg (by decide), ih]
    · rw [if_neg hc, List.filter_cons_of_pos (by simp [hc]),
        List.filter_cons_of_pos (by simp [hc]), ih]

lemma collapseSlashes_filter (s : List Char) :
    (collapseSlashes s).filter (fun c => c ≠ '/') =
      s.filter (fun c => c ≠ '/') :=
  collapseSlashesAux_filter false s

/-- Backslash replacement touches no character other than `\`: after it,
the non-slash characters are exactly the input characters that were neither
kind of separator, verbatim. -/
lemma replaceBackslashes_filter (s : List Char) :
    (replaceBackslashes s).filter (fun c => c ≠ '/') =
      s.filter (fun c => c ≠ '/' && c ≠ '\\') := by
  induction s with
  | nil => rfl
  | cons c rest ih =>
    rw [show replaceBackslashes (c :: rest) =
      (if c = '\\' then '/' else c) :: replaceBackslashes rest from rfl]
    by_cases hb : c = '\\'
    · subst hb
      rw [if_pos rfl, List.filter_cons_of_neg (by decide),
        List.filter_cons_of_neg (by decide), ih]
    · rw [if_neg hb]
      by_cases hs : c = '/'
      · subst hs
        rw [List.filter_cons_of_neg (by decide),
          List.filter_cons_of_neg (by decide), ih]
      · rw [List.filter_cons_of_pos (by simp [hs]),
          List.filter_cons_of_pos (by simp [hs, hb]), ih]

lemma ensureTrailingSlash_filter (s : List Char) :
    (ensureTrailingSlash s).filter (fun c => c ≠ '/') =
      s.filter (fun c => c ≠ '/') := by
  unfold ensureTrailingSlash
  split
  · rfl
  · rw [List.filter_append]
    simp

/-- `normalizePath` never case-folds (or otherwise alters) any character
beyond the drive-letter fix: its output's non-slash characters are exactly
the non-separator characters of the drive-fixed input, in order and
unchanged. -/
lemma normalizePathL_filter (s : List Char) :
    (normalizePathL s).filter (fun c => c ≠ '/') =
      (driveLetterFix s).filter (fun c => c ≠ '/' && c ≠ '\\') := by
  by_cases hnil : s = []
  · subst hnil; rfl
  · unfold normalizePathL normSlashes
    rw [if_neg hnil, ensureTrailingSlash_filter]
    split
    · next hdd =>
      rw [List.filter_cons_of_neg (by decide),
        List.filter_cons_of_neg (by decide), collapseSlashes_filter,
        ← replaceBackslashes_filter]
      have hsplit := (take_two_double_slash hdd).2
      conv_rhs => rw [hsplit]
      rw [List.filter_cons_of_neg (by decide),
        List.filter_cons_of_neg (by decide)]
    · rw [collapseSlashes_filter, replaceBackslashes_filter]

/-! ## Claim C7 — idempotence of `normalizePath` -/

/-- C7: `normalizePath` is idempotent, and empty (or null, which the source
treats identically to empty via its falsy check) input normalizes to the
empty string. -/
theorem c7_normalize_idempotent :
    ∀ p : String, normalizePath (normalizePath p) = normalizePath p ∧
      normalizePath "" = "" := by
  intro p
  refine ⟨?_, rfl⟩
  show (⟨normalizePathL (normalizePathL p.toList)⟩ : String) =
    ⟨normalizePathL p.toList⟩
  rw [normalizePathL_idem]

/-! ## Claim C8 — drive-letter uppercasing -/

/-- C8 counterexample: a drive prefix written with a forward slash
(`c:/x`) is not uppercased by the code, contradicting the claim that either
separator triggers uppercasing. -/
theorem c8_counterexample :
    normalizePath "c:/x" = "c:/x/" ∧ normalizePath "c:/x" ≠ "C:/x/" := by
  constructor <;> decide

/-- C8 (amended): the drive letter is uppercased only when the separator
after the colon is a backslash, in which case normalization proceeds exactly
as for the already-uppercased forward-slash spelling; with a forward-slash
separator the letter is left untouched (the output still begins with the
original letter).  No other part of the path is case-folded: in either
spelling, the output's non-slash characters are exactly the (uppercased or
original) drive letter, the colon, and the tail's non-separator characters,
in order and unchanged. -/
theorem c8_drive_upper_backslash_only (c : Char) (rest : List Char)
    (h : isAsciiLetter c = true) :
    normalizePathL (c :: ':' :: '\\' :: rest) =
        normalizePathL (c.toUpper :: ':' :: '/' :: rest) ∧
      (normalizePathL (c :: ':' :: '/' :: rest)).head? = some c ∧
      (normalizePathL (c :: ':' :: '\\' :: rest)).filter (fun x => x ≠ '/') =
        c.toUpper :: ':' :: rest.filter (fun x => x ≠ '/' && x ≠ '\\') ∧
      (normalizePathL (c :: ':' :: '/' :: rest)).filter (fun x => x ≠ '/') =
        c :: ':' :: rest.filter (fun x => x ≠ '/' && x ≠ '\\') := by
  have hfixL : driveLetterFix (c :: ':' :: '\\' :: rest) =
      c.toUpper :: ':' :: '/' :: rest := by
    simp [driveLetterFix, h]
  have hfixR : driveLetterFix (c.toUpper :: ':' :: '/' :: rest) =
      c.toUpper :: ':' :: '/' :: rest := by
    simp only [driveLetterFix]
    rw [if_neg]
    intro hcl
    exact absurd hcl.2.2 (by decide)
  have hfix : driveLetterFix (c :: ':' :: '/' :: rest) =
      c :: ':' :: '/' :: rest := by
    simp only [driveLetterFix]
    rw [if_neg]
    intro hcl
    exact absurd hcl.2.2 (by decide)
  have hc1 : c ≠ '\\' := isAsciiLetter_ne_backslash h
  have hc2 : c ≠ '/' := isAsciiLetter_ne_slash h
  have hup := isAsciiLetter_toUpper_ne c h
  refine ⟨?_, ?_, ?_, ?_⟩
  · unfold normalizePathL
    rw [if_neg (by simp), if_neg (by simp), hfixL, hfixR]
  · have hrep : replaceBackslashes (c :: ':' :: '/' :: rest) =
        c :: ':' :: '/' :: replaceBackslashes rest := by
      simp [replaceBackslashes, hc1]
    have htake : (c :: ':' :: '/' :: replaceBackslashes rest).take 2 ≠
        ['/', '/'] := by
      intro hcl
      simp only [List.take, List.cons.injEq] at hcl
      exact hc2 hcl.1
    unfold normalizePathL normSlashes
    rw [if_neg (by simp), hfix, hrep, if_neg htake]
    have hcoll : collapseSlashes (c :: ':' :: '/' :: replaceBackslashes rest) =
        c :: ':' :: '/' :: collapseSlashesAux true (replaceBackslashes rest) := by
      unfold collapseSlashes
      rw [show collapseSlashesAux false (c :: ':' :: '/' :: replaceBackslashes rest) =
        c :: collapseSlashesAux false (':' :: '/' :: replaceBackslashes rest) from by
          simp [collapseSlashesAux, hc2]]
      congr 1
    rw [hcoll]
    unfold ensureTrailingSlash
    split
    · simp
    · simp
  · rw [normalizePathL_filter, hfixL,
      List.filter_cons_of_pos (by simp [hup.1, hup.2]),
      List.filter_cons_of_pos (by decide),
      List.filter_cons_of_neg (by decide)]
  · rw [normalizePathL_filter, hfix,
      List.filter_cons_of_pos (by simp [hc1, hc2]),
      List.filter_cons_of_pos (by decide),
      List.filter_cons_of_neg (by decide)]

/-- C8 witness: the amended theorem applied at the concrete drive letter
`c` and tail `x`, recovering the unit-test behaviour
`normalizePath('c:\x') = 'C:/x/'` and checking that the tail character `x`
is untouched in both spellings. -/
theorem c8_drive_upper_backslash_only_witness :
    isAsciiLetter 'c' = true ∧
      (normalizePathL ('c' :: ':' :: '\\' :: ['x']) =
          normalizePathL ('C' :: ':' :: '/' :: ['x']) ∧
        (normalizePathL ('c' :: ':' :: '/' :: ['x'])).head? = some 'c' ∧
        (normalizePathL ('c' :: ':' :: '\\' :: ['x'])).filter
            (fun x => x ≠ '/') =
          'C' :: ':' :: ['x'].filter (fun x => x ≠ '/' && x ≠ '\\') ∧
        (normalizePathL ('c' :: ':' :: '/' :: ['x'])).filter
            (fun x => x ≠ '/') =
          'c' :: ':' :: ['x'].filter (fun x => x ≠ '/' && x ≠ '\\')) :=
  ⟨by decide, c8_drive_upper_backslash_only 'c' ['x'] (by decide)⟩

/-! ## Segment decomposition of slash-separated paths (for claim C2) -/

lemma splitSlash_ne_nil : ∀ s : List Char, splitSlash s ≠ [] := by
  intro s
  match s with
  | [] => simp [splitSlash]
  | c :: rest =>
    simp only [splitSlash]
    split
    · simp
    · split <;> simp

lemma splitSlash_cons_slash (x : List Char) :
    splitSlash ('/' :: x) = [] :: splitSlash x := by
  simp [splitSlash]

lemma splitSlash_cons_of_ne (c : Char) (x : List Char) (hc : c ≠ '/') :
    splitSlash (c :: x) =
      match splitSlash x with
      | g :: gs => (c :: g) :: gs
      | [] => [[c]] := by
  simp [splitSlash, hc]

lemma splitSlash_append_slash :
    ∀ a b : List Char, splitSlash (a ++ '/' :: b) = splitSlash a ++ splitSlash b := by
  intro a
  induction a with
  | nil => intro b; simp [splitSlash]
  | cons c t ih =>
    intro b
    by_cases hc : c = '/'
    · subst hc
      rw [List.cons_append, splitSlash_cons_slash, ih, splitSlash_cons_slash]
      rfl
    · cases hsp : splitSlash t with
      | nil => exact absurd hsp (splitSlash_ne_nil t)
      | cons g gs =>
        rw [List.cons_append, splitSlash_cons_of_ne c _ hc, ih, hsp,
          splitSlash_cons_of_ne c t hc, hsp]
        rfl

lemma segsOf_nil : segsOf [] = [] := rfl

lemma segsOf_append_slash (a b : List Char) :
    segsOf (a ++ '/' :: b) = segsOf a ++ segsOf b := by
  unfold segsOf
  rw [splitSlash_append_slash, List.filter_append]

lemma segsOf_cons_slash (b : List Char) : segsOf ('/' :: b) = segsOf b := by
  have := segsOf_append_slash [] b
  simpa using this

lemma segsOf_append_of_last_slash {a : List Char} (b : List Char)
    (ha : a.getLast? = some '/') : segsOf (a ++ b) = segsOf a ++ segsOf b := by
  have hne : a ≠ [] := by intro h; rw [h] at ha; simp at ha
  have hdecomp : a.dropLast ++ ['/'] = a := by
    have h1 := List.dropLast_append_getLast hne
    have h2 : a.getLast hne = '/' := by
      have := List.getLast?_eq_getLast a hne
      rw [this] at ha
      exact Option.some.inj ha.symm |>.symm
    rw [h2] at h1
    exact h1
  have h3 : segsOf a = segsOf a.dropLast := by
    have h4 := segsOf_append_slash a.dropLast []
    rw [segsOf_nil, List.append_nil] at h4
    conv_lhs => rw [← hdecomp]
    exact h4
  have key : a ++ b = a.dropLast ++ '/' :: b := by
    conv_lhs => rw [← hdecomp]
    rw [List.append_assoc]
    rfl
  rw [key, segsOf_append_slash, h3]

lemma splitSlash_no_slash {s : List Char} (h : ∀ c ∈ s, c ≠ '/') :
    splitSlash s = [s] := by
  induction s with
  | nil => rfl
  | cons c t ih =>
    have hc : c ≠ '/' := h c (by simp)
    have ht : splitSlash t = [t] := ih fun d hd => h d (by simp [hd])
    simp only [splitSlash, if_neg hc, ht]

lemma segsOf_no_slash {s : List Char} (hne : s ≠ [])
    (h : ∀ c ∈ s, c ≠ '/') : segsOf s = [s] := by
  unfold segsOf
  rw [splitSlash_no_slash h]
  simp [hne]

lemma joinSegs_cons {g : List Char} {gs : List (List Char)} (h : gs ≠ []) :
    joinSegs (g :: gs) = g ++ '/' :: joinSegs gs := by
  cases gs with
  | nil => exact absurd rfl h
  | cons g2 gs2 => rfl

lemma joinSegs_ne_nil {gs : List (List Char)} (hne : gs ≠ [])
    (h : ∀ g ∈ gs, g ≠ []) : joinSegs gs ≠ [] := by
  cases gs with
  | nil => exact absurd rfl hne
  | cons g gs2 =>
    cases gs2 with
    | nil =>
      show g ≠ []
      exact h g (by simp)
    | cons g3 gs3 =>
      show g ++ '/' :: joinSegs (g3 :: gs3) ≠ []
      simp

lemma segsOf_mem_ne_nil {s : List Char} {g : List Char}
    (hg : g ∈ segsOf s) : g ≠ [] := by
  unfold segsOf at hg
  rw [List.mem_filter] at hg
  simpa using hg.2

lemma hasDoubleSlash_append_right {a b : List Char}
    (h : hasDoubleSlash (a ++ b) = false) : hasDoubleSlash b = false := by
  induction a with
  | nil => exact h
  | cons c t ih =>
    apply ih
    rw [List.cons_append] at h
    exact hasDoubleSlash_cons_false h

/-- Splitting a double-slash-free string at a trailing-slash boundary: the
right part cannot begin with a slash. -/
lemma head_ne_slash_of_no_ds {a b : List Char}
    (h : hasDoubleSlash (a ++ b) = false) (ha : a.getLast? = some '/') :
    b.head? ≠ some '/' := by
  induction a with
  | nil => simp at ha
  | cons c t ih =>
    cases t with
    | nil =>
      simp only [List.getLast?_singleton, Option.some.injEq] at ha
      subst ha
      cases b with
      | nil => simp
      | cons d u =>
        simp only [List.cons_append, List.nil_append] at h
        simp only [hasDoubleSlash, Bool.or_eq_false_iff,
          Bool.and_eq_false_iff] at h
        rcases h.1 with h' | h'
        · simp at h'
        · simp only [List.head?, ne_eq, Option.some.injEq]
          intro hd
          rw [hd] at h'
          simp at h'
    | cons c2 t2 =>
      have ha' : (c2 :: t2).getLast? = some '/' := by
        simpa [List.getLast?_cons_cons] using ha
      have h' : hasDoubleSlash ((c2 :: t2) ++ b) = false := by
        rw [List.cons_append] at h
        exact hasDoubleSlash_cons_false h
      exact ih h' ha'

/-- Concatenating double-slash-free strings with a safe junction. -/
lemma hasDoubleSlash_append {b : List Char} (hb : hasDoubleSlash b = false) :
    ∀ a : List Char, ¬(a.getLast? = some '/' ∧ b.head? = some '/') →
      hasDoubleSlash a = false → hasDoubleSlash (a ++ b) = false := by
  intro a
  induction a with
  | nil => intro _ _; simpa using hb
  | cons c t ih =>
    intro hj ha
    cases t with
    | nil =>
      cases b with
      | nil => simpa using ha
      | cons d u =>
        simp only [List.cons_append, List.nil_append]
        have hcd : ¬(c = '/' ∧ d = '/') := by
          intro ⟨h1, h2⟩
          exact hj ⟨by simp [h1], by simp [h2]⟩
        simp only [hasDoubleSlash, Bool.or_eq_false_iff]
        refine ⟨?_, hb⟩
        simp only [Bool.and_eq_false_iff]
        by_cases hc : c = '/'
        · right
          simp only [decide_eq_false_iff_not]
          exact fun hd => hcd ⟨hc, hd⟩
        · left
          simp [hc]
    | cons c2 t2 =>
      have ha' : hasDoubleSlash (c2 :: t2) = false := hasDoubleSlash_cons_false ha
      have hj' : ¬((c2 :: t2).getLast? = some '/' ∧ b.head? = some '/') := by
        intro ⟨h1, h2⟩
        exact hj ⟨by simpa [List.getLast?_cons_cons] using h1, h2⟩
      have hrec := ih hj' ha'
      simp only [List.cons_append] at hrec ⊢
      simp only [hasDoubleSlash, Bool.or_eq_false_iff] at ha ⊢
      exact ⟨ha.1, by simpa using hrec⟩

lemma dropWhile_head_eq_slash :
    ∀ (y : List Char) (d : Char) (u : List Char),
      y.dropWhile (· ≠ '/') = d :: u → d = '/' := by
  intro y
  induction y with
  | nil => intro d u h; simp [List.dropWhile] at h
  | cons a t ih =>
    intro d u h
    by_cases ha : a = '/'
    · rw [List.dropWhile_cons_of_neg (by simp [ha])] at h
      exact (List.cons.inj h).1.symm.trans ha |>.symm ▸ rfl
    · rw [List.dropWhile_cons_of_pos (by simp [ha])] at h
      exact ih d u h

/-- Canonical reconstruction: a non-empty, double-slash-free string ending
in `/` is its leading slash (if absolute) plus its segments joined by `/`
plus a trailing slash. -/
lemma canon_reconstruct :
    ∀ (n : Nat) (y : List Char), y.length ≤ n → y ≠ [] →
      y.getLast? = some '/' → hasDoubleSlash y = false →
      y = (if y.head? = some '/' then ['/'] else []) ++ joinSegs (segsOf y) ++
        (if segsOf y = [] then [] else ['/']) := by
  intro n
  induction n with
  | zero =>
    intro y hlen hne
    exact absurd (List.eq_nil_of_length_eq_zero (Nat.le_zero.mp hlen)) hne
  | succ m ih =>
    intro y hlen hne hlast hds
    by_cases hhead : y.head? = some '/'
    · obtain ⟨y', rfl⟩ : ∃ y', y = '/' :: y' := by
        cases y with
        | nil => exact absurd rfl hne
        | cons c t =>
          simp only [List.head?, Option.some.injEq] at hhead
          exact ⟨t, by rw [hhead]⟩
      cases hy' : y' with
      | nil =>
        subst hy'
        simp [segsOf, splitSlash, joinSegs]
      | cons c2 t2 =>
        subst hy'
        have hne' : (c2 :: t2) ≠ [] := by simp
        have hlast' : (c2 :: t2).getLast? = some '/' := by
          simpa [List.getLast?_cons_cons] using hlast
        have hds' : hasDoubleSlash (c2 :: t2) = false :=
          hasDoubleSlash_cons_false hds
        have hhead' : (c2 :: t2).head? ≠ some '/' := by
          simp only [hasDoubleSlash, Bool.or_eq_false_iff,
            Bool.and_eq_false_iff] at hds
          rcases hds.1 with h' | h'
          · simp at h'
          · simp only [List.head?, ne_eq, Option.some.injEq]
            intro hc2
            rw [hc2] at h'
            simp at h'
        have hlen' : (c2 :: t2).length ≤ m := by
          simpa using Nat.lt_succ_iff.mp (by simpa using hlen)
        have hrec := ih (c2 :: t2) hlen' hne' hlast' hds'
        rw [if_neg hhead'] at hrec
        rw [if_pos hhead, segsOf_cons_slash]
        have hsplit : ('/' :: c2 :: t2 : List Char) = ['/'] ++ (c2 :: t2) := rfl
        conv_lhs => rw [hsplit, hrec]
        simp
    · -- y starts with a non-slash character: split off the first segment
      have hsegne : y.takeWhile (· ≠ '/') ≠ [] := by
        cases y with
        | nil => exact absurd rfl hne
        | cons c t =>
          have hc : c ≠ '/' := by
            simp only [List.head?, ne_eq, Option.some.injEq] at hhead
            exact fun h => hhead h
          simp [List.takeWhile_cons, hc]
      have hseg_noslash : ∀ c ∈ y.takeWhile (· ≠ '/'), c ≠ '/' := by
        intro c hc
        have := List.mem_takeWhile_imp hc
        simpa using this
      cases hdrop : y.dropWhile (· ≠ '/') with
      | nil =>
        -- y would consist only of non-slash characters, contradicting the
        -- trailing slash
        exfalso
        have hdecomp : y = y.takeWhile (· ≠ '/') := by
          conv_lhs => rw [← List.takeWhile_append_dropWhile (· ≠ '/') y]
          rw [hdrop, List.append_nil]
        have hmem : '/' ∈ y := by
          have hlast2 := hlast
          rw [List.getLast?_eq_getLast y hne] at hlast2
          have hLmem := List.getLast_mem hne
          have hLeq : y.getLast hne = '/' := Option.some.inj hlast2
          rwa [hLeq] at hLmem
        rw [hdecomp] at hmem
        exact hseg_noslash '/' hmem rfl
      | cons d u =>
        have hd : d = '/' := dropWhile_head_eq_slash y d u hdrop
        subst hd
        have hy : y = y.takeWhile (· ≠ '/') ++ '/' :: u := by
          conv_lhs => rw [← List.takeWhile_append_dropWhile (· ≠ '/') y]
          rw [hdrop]
        obtain ⟨seg, hsegdef⟩ : ∃ seg, y.takeWhile (· ≠ '/') = seg := ⟨_, rfl⟩
        rw [hsegdef] at hy hsegne hseg_noslash
        have hsegs : segsOf y = seg :: segsOf u := by
          conv_lhs => rw [hy]
          rw [segsOf_append_slash, segsOf_no_slash hsegne hseg_noslash]
          rfl
        cases hu : u with
        | nil =>
          subst hu
          rw [if_neg hhead, hsegs, segsOf_nil]
          simp only [joinSegs]
          rw [if_neg (by simp)]
          conv_lhs => rw [hy]
          simp
        | cons e v =>
          subst hu
          have hune : (e :: v) ≠ [] := by simp
          have hulast : (e :: v).getLast? = some '/' := by
            have h0 := hlast
            rw [hy] at h0
            rw [List.getLast?_append_cons, List.getLast?_cons_cons] at h0
            exact h0
          have huds : hasDoubleSlash (e :: v) = false := by
            have h0 := hds
            rw [hy] at h0
            exact hasDoubleSlash_cons_false (hasDoubleSlash_append_right h0)
          have huhead : (e :: v).head? ≠ some '/' := by
            have h0 := hds
            rw [hy] at h0
            have h1 : hasDoubleSlash ('/' :: e :: v) = false :=
              hasDoubleSlash_append_right h0
            simp only [hasDoubleSlash, Bool.or_eq_false_iff,
              Bool.and_eq_false_iff] at h1
            rcases h1.1 with h' | h'
            · simp at h'
            · simp only [List.head?, ne_eq, Option.some.injEq]
              intro he
              rw [he] at h'
              simp at h'
          have hulen : (e :: v).length ≤ m := by
            have hylen : y.length = seg.length + 1 + (e :: v).length := by
              conv_lhs => rw [hy]
              simp [List.length_append]
              omega
            omega
          have hrec := ih (e :: v) hulen hune hulast huds
          rw [if_neg huhead] at hrec
          have husegne : segsOf (e :: v) ≠ [] := by
            intro hcon
            rw [hcon] at hrec
            simp [joinSegs] at hrec
          rw [if_neg husegne] at hrec
          simp only [List.nil_append] at hrec
          rw [if_neg hhead, hsegs, joinSegs_cons husegne, if_neg (by simp)]
          conv_lhs => rw [hy]
          conv_lhs => rw [hrec]
          simp

lemma resolveSegs_dotfree_aux (abs : Bool) :
    ∀ (raw : List (List Char)) (acc : List (List Char)),
      (∀ g ∈ raw, g ≠ ['.'] ∧ g ≠ ['.', '.']) →
      raw.foldl (resolveSegsStep abs) acc = acc ++ raw.filter (· ≠ []) := by
  intro raw
  induction raw with
  | nil => intro acc _; simp
  | cons g t ih =>
    intro acc h
    have hg := h g (by simp)
    have ht : ∀ g' ∈ t, g' ≠ ['.'] ∧ g' ≠ ['.', '.'] :=
      fun g' hg' => h g' (by simp [hg'])
    simp only [List.foldl_cons]
    rw [ih _ ht]
    by_cases hgnil : g = []
    · subst hgnil
      simp [resolveSegsStep]
    · have hstep : resolveSegsStep abs acc g = acc ++ [g] := by
        unfold resolveSegsStep
        rw [if_neg (by simp [hgnil, hg.1]), if_neg hg.2]
      rw [hstep, List.filter_cons_of_pos (by simp [hgnil])]
      simp

lemma resolveSegs_dotfree (abs : Bool) (raw : List (List Char))
    (h : ∀ g ∈ raw, g ≠ ['.'] ∧ g ≠ ['.', '.']) :
    resolveSegs abs raw = raw.filter (· ≠ []) := by
  unfold resolveSegs
  simpa using resolveSegs_dotfree_aux abs raw [] h

/-- On inputs without `.` or `..` segments, `posix.normalize` just rebuilds
the cleaned segments. -/
lemma posixNormalizeL_dotfree (x : List Char) (hx : x ≠ [])
    (hdots : ∀ g ∈ segsOf x, g ≠ ['.'] ∧ g ≠ ['.', '.']) :
    posixNormalizeL x =
      posixRebuild (x.head? = some '/') (x.getLast? = some '/')
        (joinSegs (segsOf x)) := by
  unfold posixNormalizeL
  rw [if_neg hx]
  have hraw : ∀ g ∈ splitSlash x, g ≠ ['.'] ∧ g ≠ ['.', '.'] := by
    intro g hgmem
    by_cases hgnil : g = []
    · subst hgnil
      exact ⟨by decide, by decide⟩
    · refine hdots g ?_
      unfold segsOf
      rw [List.mem_filter]
      exact ⟨hgmem, by simpa using hgnil⟩
  rw [resolveSegs_dotfree _ _ hraw]
  rfl

lemma segsOf_ne_nil_of_head {b : List Char} (hb : b ≠ [])
    (hh : b.head? ≠ some '/') : segsOf b ≠ [] := by
  cases b with
  | nil => exact absurd rfl hb
  | cons c u =>
    have hc : c ≠ '/' := by
      simp only [List.head?, ne_eq, Option.some.injEq] at hh
      exact fun h => hh h
    rw [show (c :: u : List Char) = [] ++ c :: u from rfl]
    intro hcon
    rw [show ([] ++ c :: u : List Char) = c :: u from rfl] at hcon
    unfold segsOf at hcon
    rw [splitSlash_cons_of_ne c u hc] at hcon
    cases hsp : splitSlash u with
    | nil => exact splitSlash_ne_nil u hsp
    | cons g gs =>
      rw [hsp] at hcon
      rw [List.filter_cons_of_pos (by simp)] at hcon
      simp at hcon

lemma dropLast_append_of_last_slash {y : List Char}
    (hy : y.getLast? = some '/') (b : List Char) :
    y.dropLast ++ '/' :: b = y ++ b := by
  have hne : y ≠ [] := by intro h; rw [h] at hy; simp at hy
  have hdecomp : y.dropLast ++ ['/'] = y := by
    have h1 := List.dropLast_append_getLast hne
    have h2 : y.getLast hne = '/' := by
      rw [List.getLast?_eq_getLast y hne] at hy
      exact Option.some.inj hy
    rw [h2] at h1
    exact h1
  conv_rhs => rw [← hdecomp]
  rw [List.append_assoc]
  rfl

lemma head?_append_of_ne_nil {a : List Char} (b : List Char) (ha : a ≠ []) :
    (a ++ b).head? = a.head? := by
  cases a with
  | nil => exact absurd rfl ha
  | cons c t => rfl

/-- A canonical string that is not a network path has no double slash at
all. -/
lemma normCanon_noDS {s : List Char} (h : NormCanon s)
    (hUNC : s.take 2 ≠ ['/', '/']) : hasDoubleSlash s = false := by
  rcases h.2.2 with ⟨t, hst, _⟩ | hds
  · exact absurd (by rw [hst]; rfl) hUNC
  · exact hds

/-- Stripping leading slashes is a no-op on a string that does not start
with one. -/
lemma dropWhile_slash_of_head {b : List Char} (hh : b.head? ≠ some '/') :
    b.dropWhile (· = '/') = b := by
  cases b with
  | nil => rfl
  | cons c u =>
    have hc : c ≠ '/' := by
      simp only [List.head?, ne_eq, Option.some.injEq] at hh
      exact fun h => hh h
    rw [List.dropWhile_cons_of_neg (by simp [hc])]

/-- Computation of `buildRemote` on a canonical input split as prefix plus
remainder: under the no-degeneracy side conditions the backslash replacement,
the slash collapse and the root special cases are all identities, so the
result is just the normalized remote prefix glued to the remainder. -/
lemma buildRemote_eq (m : PathMapping) (Ln Rn rest : List Char)
    (hRn : normalizePathL m.remotePath.toList = Rn)
    (hRnBS : Rn.all (· ≠ '\\') = true)
    (hRnDS : hasDoubleSlash Rn = false)
    (hRnLast : Rn = [] ∨ Rn.getLast? = some '/')
    (hrestBS : rest.all (· ≠ '\\') = true)
    (hrestDS : hasDoubleSlash rest = false)
    (hrestHead : rest.head? ≠ some '/')
    (hdots : ∀ g ∈ segsOf rest, g ≠ ['.'])
    (hdeg : ¬(Rn = ['/', '.', '/'] ∧ rest = [])) :
    buildRemote m (Ln ++ rest) Ln =
      if Rn = [] then '/' :: rest else Rn ++ rest := by
  have hrel : ((Ln ++ rest).drop Ln.length).dropWhile (· = '/') = rest := by
    rw [List.drop_left]
    exact dropWhile_slash_of_head hrestHead
  have hstrip :
      (if Rn.getLast? = some '/' then Rn.dropLast else Rn) ++ '/' :: rest =
        if Rn = [] then '/' :: rest else Rn ++ rest := by
    rcases hRnLast with hnil | hlast
    · subst hnil; simp
    · have hne : Rn ≠ [] := by
        intro h; rw [h] at hlast; simp at hlast
      rw [if_pos hlast, if_neg hne, dropLast_append_of_last_slash hlast]
  set r := if Rn = [] then '/' :: rest else Rn ++ rest with hrdef
  have hrBS : r.all (· ≠ '\\') = true := by
    rw [hrdef]
    split
    · simpa using hrestBS
    · rw [List.all_append, hRnBS, hrestBS]
      rfl
  have hrDS : hasDoubleSlash r = false := by
    rw [hrdef]
    split
    · cases hrest : rest with
      | nil => rfl
      | cons e v =>
        have he : e ≠ '/' := by
          intro h; exact hrestHead (by rw [hrest, h]; rfl)
        rw [hrest] at hrestDS
        show hasDoubleSlash ('/' :: e :: v) = false
        simp only [hasDoubleSlash, Bool.or_eq_false_iff, Bool.and_eq_false_iff]
        exact ⟨Or.inr (by simp [he]), hrestDS⟩
    · next hne =>
      exact hasDoubleSlash_append hrestDS Rn
        (fun hcon => hrestHead hcon.2) hRnDS
  have hr1 : r ≠ ['/', '/'] := by
    intro h
    rw [h] at hrDS
    exact absurd hrDS (by decide)
  have hr2 : r ≠ ['/', '.', '/'] := by
    rw [hrdef]
    split
    · intro h
      have hrest : rest = ['.', '/'] := by
        injection h
      exact hdots ['.'] (by rw [hrest]; decide) rfl
    · next hne =>
      intro h
      rcases hRnLast with hnil | hlast
      · exact hne hnil
      cases hrestnil : rest with
      | nil =>
        rw [hrestnil, List.append_nil] at h
        exact hdeg ⟨h, hrestnil⟩
      | cons e v =>
        have hsegr : segsOf (Rn ++ rest) = segsOf Rn ++ segsOf rest :=
          segsOf_append_of_last_slash rest hlast
        rw [h] at hsegr
        have hcomp : segsOf ['/', '.', '/'] = [['.']] := by decide
        rw [hcomp] at hsegr
        have hsrne : segsOf rest ≠ [] :=
          segsOf_ne_nil_of_head (by rw [hrestnil]; simp) hrestHead
        cases hsR : segsOf Rn with
        | nil =>
          rw [hsR, List.nil_append] at hsegr
          exact hdots ['.'] (by rw [← hsegr]; exact List.mem_singleton_self _) rfl
        | cons g gs =>
          rw [hsR] at hsegr
          simp only [List.cons_append] at hsegr
          injection hsegr with h1 h2
          exact hsrne (List.append_eq_nil.mp h2.symm).2
  simp only [buildRemote]
  rw [hRn, hrel, hstrip]
  rw [replaceBackslashes_eq_self hrBS, collapseSlashes_eq_self hrDS]
  have hcond :
      (decide (r = ['/', '/']) || decide (r = ['/', '.', '/'])) = false := by
    simp [hr1, hr2]
  rw [hcond]
  simp

/-- `posix.normalize` restores a canonical, dot-free path from any input
that has the same head, a trailing slash and the same segments. -/
lemma posixNormalize_canon {np : List Char} (x : List Char)
    (hnpne : np ≠ []) (hnplast : np.getLast? = some '/')
    (hnpDS : hasDoubleSlash np = false)
    (hdots : ∀ g ∈ segsOf np, g ≠ ['.'] ∧ g ≠ ['.', '.'])
    (hx : x ≠ [])
    (hhead : x.head? = np.head?)
    (hlast : x.getLast? = some '/')
    (hsegs : segsOf x = segsOf np) :
    posixNormalizeL x = np := by
  have hdotsx : ∀ g ∈ segsOf x, g ≠ ['.'] ∧ g ≠ ['.', '.'] := by
    rw [hsegs]; exact hdots
  rw [posixNormalizeL_dotfree x hx hdotsx, hsegs, hhead, hlast]
  have hcanon := canon_reconstruct np.length np le_rfl hnpne hnplast hnpDS
  by_cases habs : np.head? = some '/'
  · cases hs : segsOf np with
    | nil =>
      rw [if_pos habs, hs, if_pos rfl] at hcanon
      simp only [joinSegs, List.append_nil] at hcanon
      rw [hcanon]
      decide
    | cons g gs =>
      have hbody : joinSegs (g :: gs) ≠ [] := by
        rw [← hs]
        refine joinSegs_ne_nil (by rw [hs]; simp) ?_
        intro g' hg'
        exact segsOf_mem_ne_nil hg'
      rw [if_pos habs, if_neg (by rw [hs]; simp), hs] at hcanon
      rw [posixRebuild, if_neg hbody, habs, hcanon]
      simp
  · cases hs : segsOf np with
    | nil =>
      rw [if_neg habs, hs, if_pos rfl] at hcanon
      simp only [joinSegs, List.append_nil, List.nil_append] at hcanon
      exact absurd hcanon hnpne
    | cons g gs =>
      have hbody : joinSegs (g :: gs) ≠ [] := by
        rw [← hs]
        refine joinSegs_ne_nil (by rw [hs]; simp) ?_
        intro g' hg'
        exact segsOf_mem_ne_nil hg'
      rw [if_neg habs, if_neg (by rw [hs]; simp), hs] at hcanon
      have habs' : decide (np.head? = some '/') = false := by
        simp [habs]
      rw [posixRebuild, if_neg hbody, habs', hcanon]
      simp

/-- Normalizing the posix join of a canonical prefix with the remainder
(with or without a leading slash) restores the canonical whole, provided the
whole is dot-free. -/
lemma join_normalize (Ln rest rel : List Char)
    (hLnlast : Ln.getLast? = some '/')
    (hnplast : (Ln ++ rest).getLast? = some '/')
    (hnpC : NormCanon (Ln ++ rest))
    (hnpDS : hasDoubleSlash (Ln ++ rest) = false)
    (hdots : ∀ g ∈ segsOf (Ln ++ rest), g ≠ ['.'] ∧ g ≠ ['.', '.'])
    (hrel : rel = rest ∨ rel = '/' :: rest) :
    normalizePathL (posixJoinL Ln rel) = Ln ++ rest := by
  have hLnne : Ln ≠ [] := by
    intro h; rw [h] at hLnlast; simp at hLnlast
  have hnpne : Ln ++ rest ≠ [] := by
    simp [hLnne]
  have hrestlast : rest ≠ [] → rest.getLast? = some '/' := by
    intro hne
    rw [List.getLast?_append_of_ne_nil Ln hne] at hnplast
    exact hnplast
  have hsegnp : segsOf (Ln ++ rest) = segsOf Ln ++ segsOf rest :=
    segsOf_append_of_last_slash rest hLnlast
  by_cases hrelne : rel = []
  · have hrestnil : rest = [] := by
      rcases hrel with h | h
      · rw [← h]; exact hrelne
      · rw [hrelne] at h; exact absurd h.symm (by simp)
    subst hrestnil
    subst hrelne
    rw [List.append_nil] at hnpC ⊢
    simp only [List.append_nil] at hdots hnpDS
    have hjoin : posixJoinL Ln [] = posixNormalizeL Ln := by
      unfold posixJoinL
      rw [if_neg hLnne, if_pos rfl]
    rw [hjoin, posixNormalize_canon Ln hLnne hLnlast hnpDS hdots hLnne rfl
      hLnlast rfl]
    exact normalizePathL_fixed hnpC
  · have hjoin : posixJoinL Ln rel = posixNormalizeL (Ln ++ '/' :: rel) := by
      unfold posixJoinL
      rw [if_neg hLnne, if_neg hrelne]
    have hsegrel : segsOf rel = segsOf rest := by
      rcases hrel with h | h
      · rw [h]
      · rw [h, segsOf_cons_slash]
    have hrellast : rel.getLast? = some '/' := by
      rcases hrel with h | h
      · exact h ▸ hrestlast (h ▸ hrelne)
      · cases hrestnil : rest with
        | nil => rw [h, hrestnil]; rfl
        | cons e v =>
          rw [h, hrestnil, List.getLast?_cons_cons, ← hrestnil]
          exact hrestlast (by rw [hrestnil]; simp)
    have hxne : Ln ++ '/' :: rel ≠ [] := by simp [hLnne]
    have hxhead : (Ln ++ '/' :: rel).head? = (Ln ++ rest).head? := by
      rw [head?_append_of_ne_nil _ hLnne, head?_append_of_ne_nil _ hLnne]
    have hxlast : (Ln ++ '/' :: rel).getLast? = some '/' := by
      rw [List.getLast?_append_of_ne_nil Ln (by simp)]
      cases hrelnil : rel with
      | nil => exact absurd hrelnil hrelne
      | cons e v =>
        rw [List.getLast?_cons_cons, ← hrelnil]
        exact hrellast
    have hxsegs : segsOf (Ln ++ '/' :: rel) = segsOf (Ln ++ rest) := by
      rw [segsOf_append_slash, hsegrel, hsegnp]
    rw [hjoin, posixNormalize_canon (Ln ++ '/' :: rel) hnpne hnplast hnpDS
      hdots hxne hxhead hxlast hxsegs]
    exact normalizePathL_fixed hnpC

lemma toList_ne_nil {s : String} (h : s ≠ "") : s.toList ≠ [] := by
  intro hc
  apply h
  cases s with
  | mk data =>
    have hdata : data = [] := hc
    rw [hdata]

lemma mk_ne_empty {l : List Char} (h : l ≠ []) : (⟨l⟩ : String) ≠ "" := by
  intro hc
  exact h (congrArg String.toList hc)

/-- The value produced by `buildRemote` under the conditions of
`buildRemote_eq` is itself canonical. -/
lemma glued_canon (Rn rest : List Char)
    (hRnBS : Rn.all (· ≠ '\\') = true)
    (hRnDS : hasDoubleSlash Rn = false)
    (hRnLast : Rn = [] ∨ Rn.getLast? = some '/')
    (hrestBS : rest.all (· ≠ '\\') = true)
    (hrestDS : hasDoubleSlash rest = false)
    (hrestHead : rest.head? ≠ some '/')
    (hrestLast : rest = [] ∨ rest.getLast? = some '/') :
    NormCanon (if Rn = [] then '/' :: rest else Rn ++ rest) := by
  refine ⟨?_, ?_, Or.inr ?_⟩
  · split
    · simpa using hrestBS
    · rw [List.all_append, hRnBS, hrestBS]
      rfl
  · split
    · rcases hrestLast with hnil | hlast
      · rw [hnil]; rfl
      · have hne : rest ≠ [] := by
          intro h; rw [h] at hlast; simp at hlast
        have hsplit : ('/' :: rest : List Char) = ['/'] ++ rest := rfl
        rw [hsplit, List.getLast?_append_of_ne_nil ['/'] hne]
        exact hlast
    · next hRne =>
      rcases hrestLast with hnil | hlast
      · rw [hnil, List.append_nil]
        rcases hRnLast with h | h
        · exact absurd h hRne
        · exact h
      · have hne : rest ≠ [] := by
          intro h; rw [h] at hlast; simp at hlast
        rw [List.getLast?_append_of_ne_nil Rn hne]
        exact hlast
  · split
    · cases hrest : rest with
      | nil => rfl
      | cons e v =>
        have he : e ≠ '/' := by
          intro h; exact hrestHead (by rw [hrest, h]; rfl)
        rw [hrest] at hrestDS
        show hasDoubleSlash ('/' :: e :: v) = false
        simp only [hasDoubleSlash, Bool.or_eq_false_iff, Bool.and_eq_false_iff]
        exact ⟨Or.inr (by simp [he]), hrestDS⟩
    · exact hasDoubleSlash_append hrestDS Rn
        (fun hcon => hrestHead hcon.2) hRnDS

/-- Unfolding of `convertLocalPathToRemote` for a server with exactly one
mapping whose normalized local prefix matches. -/
lemma convertLocal_single (L R nm cwd p : String) (hp : p ≠ "")
    (hpre : (normalizePathL L.toList).isPrefixOf (normalizePathL p.toList) =
      true) :
    convertLocalPathToRemote p ⟨nm, [⟨L, R⟩], none, cwd⟩ =
      some ⟨buildRemote ⟨L, R⟩ (normalizePathL p.toList)
        (normalizePathL L.toList)⟩ := by
  unfold convertLocalPathToRemote
  rw [if_neg hp]
  show convertLocalLoop (normalizePathL p.toList) [⟨L, R⟩] = _
  simp only [convertLocalLoop]
  rw [if_pos hpre]

/-- Unfolding of `convertRemotePathToLocal` for a server with exactly one
mapping whose normalized remote prefix matches an already-normalized input. -/
lemma convertRemote_single (L R nm cwd : String) (rL : List Char)
    (hrLne : rL ≠ [])
    (hrLfix : normalizePathL rL = rL)
    (hpreR : (normalizePathL R.toList).isPrefixOf rL = true) :
    convertRemotePathToLocal ⟨rL⟩ ⟨nm, [⟨L, R⟩], none, cwd⟩ =
      some ⟨normalizePathL (posixJoinL (normalizePathL L.toList)
        (rL.drop (normalizePathL R.toList).length))⟩ := by
  unfold convertRemotePathToLocal
  rw [if_neg (mk_ne_empty hrLne)]
  show convertRemoteLoop (normalizePathL rL) [⟨L, R⟩] = _
  rw [hrLfix]
  simp only [convertRemoteLoop]
  rw [if_pos hpreR]

/-! ## Claims C5 and C6 — the reference scanner -/

/-- C5: on the spec's example text the scanner returns exactly one
reference — `/usr/local/bin/app.js` at line 10, column 2 — and its span
does not overlap the detected URL span (characters 4-28). -/
theorem c5_scan_url_example :
    findPotentialPaths
        "see http://example.com/a/b.js and /usr/local/bin/app.js:10:2" =
        [{ path := "/usr/local/bin/app.js", startIndex := 34, length := 26,
           line := some 10, column := some 2, type := "unix",
           searchInfo := some ⟨"app.js", "**/app.js", some 10, some 2⟩,
           isUnix := true, isRelative := false, localPath := none }] ∧
      findUrlRanges
          "see http://example.com/a/b.js and /usr/local/bin/app.js:10:2".toList =
        [(4, 25)] ∧
      overlapsUrl [(4, 25)] 34 26 = false := by
  refine ⟨by decide, by decide, by decide⟩

lemma findFirstFrom_le (tryAt : Nat → Option PatMatch) :
    ∀ (fuel pos : Nat) (h : RawHit),
      findFirstFrom tryAt fuel pos = some h → pos ≤ h.idx := by
  intro fuel
  induction fuel with
  | zero => intro pos h hf; simp [findFirstFrom] at hf
  | succ n ih =>
    intro pos h hf
    unfold findFirstFrom at hf
    cases hm : tryAt pos with
    | some m =>
      rw [hm] at hf
      have hinj := Option.some.inj hf
      subst hinj
      exact Nat.le_refl _
    | none =>
      rw [hm] at hf
      exact le_trans (Nat.le_succ pos) (ih (pos + 1) h hf)

/-- Every `exec` loop produces hits whose indices never decrease (each
iteration resumes at or after the previous match's end). -/
lemma execAllAux_bounds (tryAt : Nat → Option PatMatch) (limit : Nat) :
    ∀ (fuel pos : Nat),
      (∀ h ∈ execAllAux tryAt limit fuel pos, pos ≤ h.idx) ∧
        ((execAllAux tryAt limit fuel pos).map RawHit.idx).Pairwise (· ≤ ·) := by
  intro fuel
  induction fuel with
  | zero => intro pos; simp [execAllAux]
  | succ n ih =>
    intro pos
    cases hf : findFirstFrom tryAt (limit + 1 - pos) pos with
    | none => simp [execAllAux, hf]
    | some h =>
      simp only [execAllAux, hf]
      have hpos : pos ≤ h.idx := findFirstFrom_le tryAt _ _ _ hf
      have hrec := ih (max (h.idx + h.pm.len) (pos + 1))
      constructor
      · intro h' hh'
        simp only [List.mem_cons] at hh'
        rcases hh' with rfl | hh'
        · exact hpos
        · exact le_trans (Nat.le_succ pos)
            (le_trans (le_max_right _ _) (hrec.1 h' hh'))
      · simp only [List.map_cons]
        rw [List.pairwise_cons]
        refine ⟨?_, hrec.2⟩
        intro b hb
        simp only [List.mem_map] at hb
        obtain ⟨h', hh', rfl⟩ := hb
        exact le_trans (Nat.le_add_right _ _)
          (le_trans (le_max_left _ _) (hrec.1 h' hh'))

/-- Each pattern's result group is ordered by start position. -/
lemma patternGroup_sorted (text : List Char) (ranges : List (Nat × Nat))
    (ty : String) (tryAt : List Char → Nat → Option PatMatch) :
    ((patternGroup text ranges ty tryAt).map PathResult.startIndex).Pairwise
      (· ≤ ·) := by
  unfold patternGroup execAll
  have hb := (execAllAux_bounds (tryAt text) text.length (text.length + 2) 0).2
  have hPair :
      (execAllAux (tryAt text) text.length (text.length + 2) 0).Pairwise
        (fun a b => a.idx ≤ b.idx) := List.pairwise_map.mp hb
  have hfilt :
      ((execAllAux (tryAt text) text.length (text.length + 2) 0).filter
          fun h => !overlapsUrl ranges h.idx h.pm.len).Pairwise
        (fun a b => a.idx ≤ b.idx) :=
    List.Pairwise.sublist (List.filter_sublist _) hPair
  rw [List.map_map, List.pairwise_map]
  exact hfilt.imp fun hab => hab

/-- C6 counterexample: on `"a.cpp(1): /x"` the scanner returns the unix
match (start 10) before the cmake match (start 0), so the full sequence is
not ordered by position in the text. -/
theorem c6_counterexample :
    (findPotentialPaths "a.cpp(1): /x").map PathResult.startIndex = [10, 0] ∧
      ¬ ((findPotentialPaths "a.cpp(1): /x").map PathResult.startIndex).Pairwise
          (· ≤ ·) := by
  refine ⟨by decide, by decide⟩

/-- C6 (amended): the scanner's output is a finite list grouped by grammar
in the fixed order unix, cmake, make, relative, and *within each group* the
references appear left to right (start positions never decrease); across
groups the position order is not preserved. -/
theorem c6_scan_grouped_order (text : String) :
    (findPotentialPaths text =
        patternGroup text.toList (findUrlRanges text.toList) "unix"
            unixTryAt ++
          patternGroup text.toList (findUrlRanges text.toList) "cmake"
            cmakeTryAt ++
          patternGroup text.toList (findUrlRanges text.toList) "make"
            makeTryAt ++
          patternGroup text.toList (findUrlRanges text.toList) "relative"
            relativeTryAt) ∧
      ((patternGroup text.toList (findUrlRanges text.toList) "unix"
            unixTryAt).map PathResult.startIndex).Pairwise (· ≤ ·) ∧
      ((patternGroup text.toList (findUrlRanges text.toList) "cmake"
            cmakeTryAt).map PathResult.startIndex).Pairwise (· ≤ ·) ∧
      ((patternGroup text.toList (findUrlRanges text.toList) "make"
            makeTryAt).map PathResult.startIndex).Pairwise (· ≤ ·) ∧
      ((patternGroup text.toList (findUrlRanges text.toList) "relative"
            relativeTryAt).map PathResult.startIndex).Pairwise (· ≤ ·) :=
  ⟨rfl, patternGroup_sorted _ _ _ _, patternGroup_sorted _ _ _ _,
    patternGroup_sorted _ _ _ _, patternGroup_sorted _ _ _ _⟩

/-! ## Claim C3 — missing targets fall through to search -/

/-- C3 counterexample: when the search collaborators themselves reject
(both `findFiles` and the quick-open box), the resolution of a reference
whose translated path does not exist ends in `success = false` with the
error recorded and *no* action, so the claim as stated is false. -/
theorem c3_counterexample :
    openPathFromText envSearchFails "/u/a.js" serverU =
        { success := false, error := some "quickOpen failed" } ∧
      ((processPathsFromText envSearchFails "/u/a.js" serverU).find?
          fun p => p.localPath.isSome) = some vpU ∧
      checkPathExistsFS envSearchFails "C:/w/a.js/" = (false, false) := by
  refine ⟨by decide, by decide, by decide⟩

/-- C3 (amended): whenever the first reference with a translated local path
has a target that does not exist (the `stat` collaborator rejects), and the
search collaborator completes without throwing, `openPathFromText` returns
`success = true` with `action = "search"` and invokes the search with the
bare filename (`path.basename` of the reference's raw path) plus its
line/column; it never returns `success = false` without an action in this
situation.  If the search collaborator itself throws, the outer catch still
produces an explicit `success = false` result carrying the error. -/
theorem c3_search_on_missing (env : Env) (text : String) (server : Server)
    (vp : PathResult) (lp msg : String)
    (hfind : ((processPathsFromText env text server).find?
      fun p => p.localPath.isSome) = some vp)
    (hlp : vp.localPath = some lp)
    (hex : env.fsStat lp = .error msg)
    (hsearch : searchAndOpenFileM env (basename vp.path) vp.line vp.column =
      .ok ()) :
    openPathFromText env text server =
        { success := true, action := some "search", path := some vp } ∧
      openPathFromTextBody env text server =
        .ok ({ success := true, action := some "search", path := some vp },
          some (basename vp.path, vp.line, vp.column)) := by
  have htext : text ≠ "" := by
    intro h
    subst h
    rw [show processPathsFromText env "" server = [] from rfl] at hfind
    simp at hfind
  have hne : processPathsFromText env text server ≠ [] := by
    intro h
    rw [h] at hfind
    simp at hfind
  have hcheck : checkPathExistsFS env (vp.localPath.getD "") =
      (false, false) := by
    rw [hlp]
    unfold checkPathExistsFS
    rw [show (some lp).getD "" = lp from rfl, hex]
  have hbody : openPathFromTextBody env text server =
      .ok ({ success := true, action := some "search", path := some vp },
        some (basename vp.path, vp.line, vp.column)) := by
    unfold openPathFromTextBody
    rw [if_neg htext, if_neg hne, hfind]
    simp only [hcheck, hsearch]
  refine ⟨?_, hbody⟩
  unfold openPathFromText
  rw [hbody]

/-- C3 witness: the amended theorem at the concrete environment
`envSearchOk` and input `"/u/a.js"`. -/
theorem c3_search_on_missing_witness :
    (((processPathsFromText envSearchOk "/u/a.js" serverU).find?
        fun p => p.localPath.isSome) = some vpU ∧
      vpU.localPath = some "C:/w/a.js/" ∧
      envSearchOk.fsStat "C:/w/a.js/" = .error "ENOENT" ∧
      searchAndOpenFileM envSearchOk (basename vpU.path) vpU.line vpU.column =
        .ok ()) ∧
      openPathFromText envSearchOk "/u/a.js" serverU =
        { success := true, action := some "search", path := some vpU } :=
  ⟨⟨by decide, rfl, rfl, rfl⟩,
    (c3_search_on_missing envSearchOk "/u/a.js" serverU vpU "C:/w/a.js/"
        "ENOENT" (by decide) rfl rfl rfl).1⟩

/-! ## Claim C4 — the pipeline never raises -/

lemma searchAndOpenFileM_ok (env : Env)
    (hqo : ∀ s, env.quickOpen s = Except.ok ()) (n : String)
    (l c : Option Nat) : searchAndOpenFileM env n l c = .ok () := by
  unfold searchAndOpenFileM
  cases h : searchTryBody env n l c with
  | ok u => rfl
  | error e => exact hqo n

lemma directoryFlow_ok (env : Env)
    (hqp : ∀ l, ∃ v, env.showQuickPick l = Except.ok v) (vp : PathResult)
    (lp : String) : ∃ r tr, directoryFlow env vp lp = .ok (r, tr) := by
  simp only [directoryFlow]
  split
  · split
    · split
      · exact ⟨_, _, rfl⟩
      · exact ⟨_, _, rfl⟩
    · exact ⟨_, _, rfl⟩
  · obtain ⟨v, hv⟩ :=
      hqp ["在当前窗口打开", "在新窗口打开", "添加到工作区", "在文件浏览器中打开"]
    rw [hv]
    rcases v with _ | opt
    · exact ⟨_, _, rfl⟩
    · dsimp only
      by_cases h1 : opt = "在当前窗口打开"
      · rw [if_pos h1]
        cases hof : env.openFolderCmd lp false with
        | ok u => exact ⟨_, _, rfl⟩
        | error e => exact ⟨_, _, rfl⟩
      · rw [if_neg h1]
        by_cases h2 : opt = "在新窗口打开"
        · rw [if_pos h2]
          cases hof : env.openFolderCmd lp true with
          | ok u => exact ⟨_, _, rfl⟩
          | error e => exact ⟨_, _, rfl⟩
        · rw [if_neg h2]
          by_cases h3 : opt = "添加到工作区"
          · rw [if_pos h3]
            cases hup : env.updateWorkspaceFoldersCmd lp with
            | ok u =>
              cases hev : env.explorerView with
              | ok u2 => exact ⟨_, _, rfl⟩
              | error e => exact ⟨_, _, rfl⟩
            | error e => exact ⟨_, _, rfl⟩
          · rw [if_neg h3]
            by_cases h4 : opt = "在文件浏览器中打开"
            · rw [if_pos h4]
              exact ⟨_, _, rfl⟩
            · rw [if_neg h4]
              exact ⟨_, _, rfl⟩

/-- C4: `openPathFromText` always terminates in a result whose `success` is
explicitly `true` or `false` (the outer catch turns any escaped collaborator
rejection into an explicit failure), and when the two collaborators that are
not shielded by an inner catch (the quick-open box and the directory quick
pick) complete normally, the whole body completes without raising and its
result is what the caller receives. -/
theorem c4_no_unhandled_error (env : Env) (text : String) (server : Server) :
    ((openPathFromText env text server).success = false ∨
      (openPathFromText env text server).success = true) ∧
    (EnvTotal env →
      ∃ r tr, openPathFromTextBody env text server = .ok (r, tr) ∧
        openPathFromText env text server = r) := by
  refine ⟨(Bool.eq_false_or_eq_true _).symm, ?_⟩
  rintro ⟨hqo, hqp⟩
  have hok : ∃ r tr, openPathFromTextBody env text server = .ok (r, tr) := by
    unfold openPathFromTextBody
    split
    · exact ⟨_, _, rfl⟩
    · split
      · exact ⟨_, _, rfl⟩
      · split
        · exact ⟨_, _, rfl⟩
        · split
          · rw [searchAndOpenFileM_ok env hqo]
            exact ⟨_, _, rfl⟩
          · exact directoryFlow_ok env hqp _ _
          · exact ⟨_, _, rfl⟩
  obtain ⟨r, tr, hr⟩ := hok
  refine ⟨r, tr, hr, ?_⟩
  unfold openPathFromText
  rw [hr]

/-- C4 witness: the theorem applied at `envSearchOk`, an environment with
behaving collaborators, on a reference that falls through to search. -/
theorem c4_no_unhandled_error_witness :
    EnvTotal envSearchOk ∧
      (∃ r tr, openPathFromTextBody envSearchOk "/u/a.js" serverU =
          .ok (r, tr) ∧
        openPathFromText envSearchOk "/u/a.js" serverU = r) :=
  ⟨⟨fun _ => rfl, fun _ => ⟨none, rfl⟩⟩,
    (c4_no_unhandled_error envSearchOk "/u/a.js" serverU).2
      ⟨fun _ => rfl, fun _ => ⟨none, rfl⟩⟩⟩

/-! ## Claim C1 — connection matching discipline -/

/-- C1 counterexample: with the `C:/Projects` connection declared first and
the `C:/Projects/app` connection second, the code returns the *first*
(shorter-prefix) connection for `C:/Projects/app/x.c`, while the spec's
longest-prefix rule would return the second; so the claim is false of the
code. -/
theorem c1_counterexample :
    findServerForPath [serverProj, serverApp] "C:/Projects/app/x.c" =
        some serverProj ∧
      findServerForPathDetailed [serverProj, serverApp] "C:/Projects/app/x.c" =
        some ⟨serverProj, ⟨"C:/Projects", "/srv/projects"⟩⟩ ∧
      findConnectionForLocalPathSpec [serverProj, serverApp]
          "C:/Projects/app/x.c" = some serverApp ∧
      serverProj ≠ serverApp := by
  refine ⟨by decide, by decide, by decide, by decide⟩

lemma serverMappingMatches_any (nfp : List Char) (pms : List PathMapping) :
    serverMappingMatches nfp pms =
      pms.any fun m => (normalizePathL m.localPath.toList).isPrefixOf nfp := by
  induction pms with
  | nil => rfl
  | cons m rest ih =>
    simp only [serverMappingMatches, List.any_cons, ih]

lemma findServerLoop_find (nfp : List Char) (servers : List Server) :
    findServerLoop nfp servers =
      servers.find? fun s => serverMappingMatches nfp (getPathMappings s) := by
  induction servers with
  | nil => rfl
  | cons s rest ih =>
    cases hx : serverMappingMatches nfp (getPathMappings s) with
    | true =>
      simp only [findServerLoop]
      rw [if_pos hx]
      exact (List.find?_cons_of_pos rest hx).symm
    | false =>
      simp only [findServerLoop]
      rw [if_neg (by simp [hx]), ih]
      exact (List.find?_cons_of_neg rest (by simp [hx])).symm

lemma findServerDetailedInner_map (nfp : List Char) (s : Server)
    (pms : List PathMapping) :
    (findServerDetailedInner nfp s pms).map DetailedMatch.server =
      if serverMappingMatches nfp pms then some s else none := by
  induction pms with
  | nil => rfl
  | cons m rest ih =>
    cases hb : (normalizePathL m.localPath.toList).isPrefixOf nfp with
    | true =>
      have hbp : normalizePathL m.localPath.data <+: nfp :=
        List.isPrefixOf_iff_prefix.mp hb
      simp only [findServerDetailedInner]
      rw [if_pos hb]
      have hms : serverMappingMatches nfp (m :: rest) = true := by
        simp [serverMappingMatches, hbp]
      rw [hms]
      simp
    | false =>
      have hb2 : (normalizePathL m.localPath.data).isPrefixOf nfp = false := hb
      have hbp : ¬ normalizePathL m.localPath.data <+: nfp := by
        intro hp
        rw [← List.isPrefixOf_iff_prefix] at hp
        rw [hb2] at hp
        exact absurd hp (by decide)
      simp only [findServerDetailedInner]
      rw [if_neg (by simp [hbp]), ih]
      have hms : serverMappingMatches nfp (m :: rest) =
          serverMappingMatches nfp rest := by
        simp [serverMappingMatches, hbp]
      rw [hms]

lemma findServerDetailedLoop_map (nfp : List Char) (servers : List Server) :
    (findServerDetailedLoop nfp servers).map DetailedMatch.server =
      findServerLoop nfp servers := by
  induction servers with
  | nil => rfl
  | cons s rest ih =>
    have hinner := findServerDetailedInner_map nfp s (getPathMappings s)
    cases hmatch : serverMappingMatches nfp (getPathMappings s) with
    | true =>
      rw [hmatch, if_pos rfl] at hinner
      cases hd : findServerDetailedInner nfp s (getPathMappings s) with
      | none => rw [hd] at hinner; exact absurd hinner (by simp)
      | some d =>
        rw [hd] at hinner
        have hds : d.server = s := by simpa using hinner
        simp only [findServerDetailedLoop, findServerLoop, hd, hmatch]
        simp [hds]
    | false =>
      rw [hmatch] at hinner
      rw [if_neg (by simp)] at hinner
      cases hd : findServerDetailedInner nfp s (getPathMappings s) with
      | some d => rw [hd] at hinner; simp at hinner
      | none =>
        simp only [findServerDetailedLoop, findServerLoop, hd, hmatch]
        simpa using ih

/-- C1 (amended): `findServerForPath` is *first-fit* over connection
declaration order — it returns the first server any of whose mappings'
normalized local prefixes is a prefix of the normalized input, regardless of
prefix length — and `findServerForPathDetailed` selects the same server.  In
the claim's example the `C:/Projects` connection, being declared first, is
returned instead of `C:/Projects/app`. -/
theorem c1_first_fit (servers : List Server) (fp : String) (hfp : fp ≠ "") :
    findServerForPath servers fp =
        (servers.find? fun s =>
          (getPathMappings s).any fun m =>
            (normalizePathL m.localPath.toList).isPrefixOf
              (normalizePathL fp.toList)) ∧
      (findServerForPathDetailed servers fp).map DetailedMatch.server =
        findServerForPath servers fp := by
  unfold findServerForPath findServerForPathDetailed
  rw [if_neg hfp, if_neg hfp]
  by_cases hs : servers = []
  · subst hs
    exact ⟨rfl, rfl⟩
  · rw [if_neg hs, if_neg hs]
    refine ⟨?_, findServerDetailedLoop_map _ _⟩
    rw [findServerLoop_find]
    congr 1
    funext s
    rw [serverMappingMatches_any]

/-- C1 witness: the amended first-fit characterization applied to the
two-connection example of the claim. -/
theorem c1_first_fit_witness :
    ("C:/Projects/app/x.c" : String) ≠ "" ∧
      (findServerForPath [serverProj, serverApp] "C:/Projects/app/x.c" =
          ([serverProj, serverApp].find? fun s =>
            (getPathMappings s).any fun m =>
              (normalizePathL m.localPath.toList).isPrefixOf
                (normalizePathL "C:/Projects/app/x.c".toList)) ∧
        (findServerForPathDetailed [serverProj, serverApp]
              "C:/Projects/app/x.c").map DetailedMatch.server =
          findServerForPath [serverProj, serverApp] "C:/Projects/app/x.c") :=
  ⟨by decide,
    c1_first_fit [serverProj, serverApp] "C:/Projects/app/x.c" (by decide)⟩

/-! ## Claim C9 — empty prefixes are (not) excluded from matching -/

/-- C9 counterexample: a mapping whose `localPath` is empty normalizes to
the empty string, which is a prefix of every normalized path, so it matches
every input of `convertLocalPathToRemote` and of the server matcher; dually
an empty `remotePath` matches every input of `convertRemotePathToLocal`.
The claimed exclusion does not exist in the code. -/
theorem c9_counterexample :
    convertLocalPathToRemote "C:\\x" ⟨"s", [⟨"", "/r"⟩], none, ""⟩ =
        some "/r/C:/x/" ∧
      findServerForPath [⟨"s", [⟨"", "/r"⟩], none, ""⟩] "C:\\x" =
        some ⟨"s", [⟨"", "/r"⟩], none, ""⟩ ∧
      convertRemotePathToLocal "/z" ⟨"s", [⟨"/l", ""⟩], none, ""⟩ =
        some "/l/z/" := by
  refine ⟨by decide, by decide, by decide⟩

/-- C9 (amended): a mapping with an empty prefix is *not* excluded: because
the empty string prefixes everything, a leading mapping with empty
`localPath` makes `convertLocalPathToRemote` and the server matcher match
every non-empty input, and a leading mapping with empty `remotePath` makes
`convertRemotePathToLocal` match every non-empty input. -/
theorem c9_empty_mapping_matches (R L p nm cwd : String) (hp : p ≠ "") :
    convertLocalPathToRemote p ⟨nm, [⟨"", R⟩], none, cwd⟩ ≠ none ∧
      findServerForPath [⟨nm, [⟨"", R⟩], none, cwd⟩] p ≠ none ∧
      convertRemotePathToLocal p ⟨nm, [⟨L, ""⟩], none, cwd⟩ ≠ none := by
  refine ⟨?_, ?_, ?_⟩
  · unfold convertLocalPathToRemote
    rw [if_neg hp]
    simp [getPathMappings, convertLocalLoop, normalizePathL,
      List.isPrefixOf]
  · unfold findServerForPath
    rw [if_neg hp, if_neg (by simp)]
    simp [findServerLoop, serverMappingMatches, getPathMappings,
      normalizePathL, List.isPrefixOf]
  · unfold convertRemotePathToLocal
    rw [if_neg hp]
    simp [getPathMappings, convertRemoteLoop, normalizePathL,
      List.isPrefixOf]

/-- C9 witness: the amended statement at the concrete input of the
counterexample. -/
theorem c9_empty_mapping_matches_witness :
    ("C:\\x" : String) ≠ "" ∧
      (convertLocalPathToRemote "C:\\x" ⟨"s", [⟨"", "/r"⟩], none, ""⟩ ≠ none ∧
        findServerForPath [⟨"s", [⟨"", "/r"⟩], none, ""⟩] "C:\\x" ≠ none ∧
        convertRemotePathToLocal "C:\\x" ⟨"s", [⟨"/l", ""⟩], none, ""⟩ ≠ none) :=
  ⟨by decide, c9_empty_mapping_matches "/r" "/l" "C:\\x" "s" "" (by decide)⟩

/-! ## Claim C10 — results of `convertRemotePathToLocal` are normalized -/

lemma convertRemoteLoop_shape {nrp : List Char} {pms : List PathMapping}
    {lp : String} (h : convertRemoteLoop nrp pms = some lp) :
    ∃ j : List Char, j ≠ [] ∧ lp = ⟨normalizePathL j⟩ := by
  induction pms with
  | nil => simp [convertRemoteLoop] at h
  | cons m rest ih =>
    unfold convertRemoteLoop at h
    split at h
    · exact ⟨_, posixJoinL_ne_nil _ _, (Option.some.injEq _ _ ▸ h.symm)⟩
    · exact ih h

/-- C10: a non-null result of `convertRemotePathToLocal` is always a fixed
point of `normalizePath`; in particular it ends with a forward slash.
(`convertLocalPathToRemote` results are built by string concatenation
without a final `normalizePath` pass, so the spec gives them no such
guarantee.) -/
theorem c10_remote_to_local_normalized (remotePath : String) (server : Server)
    (lp : String) (h : convertRemotePathToLocal remotePath server = some lp) :
    normalizePath lp = lp ∧ lp.toList.getLast? = some '/' := by
  unfold convertRemotePathToLocal at h
  split at h
  · exact absurd h (by simp)
  · split at h
    · exact absurd h (by simp)
    · obtain ⟨j, hj, hlp⟩ := convertRemoteLoop_shape h
      subst hlp
      constructor
      · show (⟨normalizePathL (normalizePathL j)⟩ : String) = ⟨normalizePathL j⟩
        rw [normalizePathL_idem]
      · exact (normalizePathL_canon hj).2.1

/-- C10 witness: the theorem applied to the unit-test conversion
`/home/user/projects/file.txt` on `serverT`. -/
theorem c10_remote_to_local_normalized_witness :
    convertRemotePathToLocal "/home/user/projects/file.txt" serverT =
        some "C:/Projects/file.txt/" ∧
      normalizePath "C:/Projects/file.txt/" = "C:/Projects/file.txt/" ∧
        "C:/Projects/file.txt/".toList.getLast? = some '/' :=
  ⟨by decide,
    c10_remote_to_local_normalized "/home/user/projects/file.txt" serverT
      "C:/Projects/file.txt/" (by decide)⟩

/-! ## Claim C2 — the local/remote round trip -/

/-- C2 counterexample: for the single mapping `{/a, /r}` and the input
`/a/./x`, whose normalization `/a/./x/` starts with the normalized local
prefix `/a/`, the round trip yields `/a/x/` — `path.join` inside
`convertRemotePathToLocal` resolves the `.` segment that `normalizePath`
preserves — so the result differs from `normalize(p)`. -/
theorem c2_counterexample :
    (normalizePathL "/a".toList).isPrefixOf (normalizePathL "/a/./x".toList) =
        true ∧
      (convertLocalPathToRemote "/a/./x" ⟨"s", [⟨"/a", "/r"⟩], none, ""⟩).bind
          (fun r => convertRemotePathToLocal r ⟨"s", [⟨"/a", "/r"⟩], none, ""⟩) =
        some "/a/x/" ∧
      normalizePath "/a/./x" = "/a/./x/" ∧
      ("/a/x/" : String) ≠ "/a/./x/" := by
  refine ⟨by decide, by decide, by decide, by decide⟩

/-- C2 (amended): the round trip through `convertLocalPathToRemote` and
`convertRemotePathToLocal` over a single-mapping connection recovers
`normalizePath p` provided additionally that the local prefix is non-empty,
neither the normalized input nor the normalized remote prefix is a network
(`//`) path, the normalized input contains no `.` or `..` segments, and the
degenerate root case (remote prefix normalizing to `/./` with the input
equal to the local prefix) is excluded. -/
theorem c2_round_trip (L R nm cwd p : String)
    (hL : L ≠ "") (hp : p ≠ "")
    (hpre : (normalizePathL L.toList).isPrefixOf (normalizePathL p.toList) =
      true)
    (hUNCp : (normalizePathL p.toList).take 2 ≠ ['/', '/'])
    (hUNCR : (normalizePathL R.toList).take 2 ≠ ['/', '/'])
    (hdots : ∀ g ∈ segsOf (normalizePathL p.toList),
      g ≠ ['.'] ∧ g ≠ ['.', '.'])
    (hdeg : ¬(normalizePathL R.toList = ['/', '.', '/'] ∧
      normalizePathL p.toList = normalizePathL L.toList)) :
    (convertLocalPathToRemote p ⟨nm, [⟨L, R⟩], none, cwd⟩).bind
        (fun r => convertRemotePathToLocal r ⟨nm, [⟨L, R⟩], none, cwd⟩) =
      some (normalizePath p) := by
  have hLnC : NormCanon (normalizePathL L.toList) :=
    normalizePathL_canon (toList_ne_nil hL)
  have hnpC : NormCanon (normalizePathL p.toList) :=
    normalizePathL_canon (toList_ne_nil hp)
  have hLnlast := hLnC.2.1
  have hnpDS : hasDoubleSlash (normalizePathL p.toList) = false :=
    normCanon_noDS hnpC hUNCp
  obtain ⟨rest, hrest⟩ := List.isPrefixOf_iff_prefix.mp hpre
  have hRnBS : (normalizePathL R.toList).all (· ≠ '\\') = true := by
    by_cases hR : R = ""
    · rw [hR]; rfl
    · exact (normalizePathL_canon (toList_ne_nil hR)).1
  have hRnLastOr : normalizePathL R.toList = [] ∨
      (normalizePathL R.toList).getLast? = some '/' := by
    by_cases hR : R = ""
    · left; rw [hR]; rfl
    · right; exact (normalizePathL_canon (toList_ne_nil hR)).2.1
  have hRnDS : hasDoubleSlash (normalizePathL R.toList) = false := by
    by_cases hR : R = ""
    · rw [hR]; rfl
    · exact normCanon_noDS (normalizePathL_canon (toList_ne_nil hR)) hUNCR
  rw [← hrest] at hnpC hnpDS hdots
  have hnplast : (normalizePathL L.toList ++ rest).getLast? = some '/' :=
    hnpC.2.1
  have hrestBS : rest.all (· ≠ '\\') = true := by
    have hall := hnpC.1
    rw [List.all_append] at hall
    exact ((Bool.and_eq_true _ _).mp hall).2
  have hrestDS : hasDoubleSlash rest = false :=
    hasDoubleSlash_append_right hnpDS
  have hrestHead : rest.head? ≠ some '/' :=
    head_ne_slash_of_no_ds hnpDS hLnlast
  have hsegnp : segsOf (normalizePathL L.toList ++ rest) =
      segsOf (normalizePathL L.toList) ++ segsOf rest :=
    segsOf_append_of_last_slash rest hLnlast
  have hdotsrest : ∀ g ∈ segsOf rest, g ≠ ['.'] := by
    intro g hg
    exact (hdots g (by rw [hsegnp]; exact List.mem_append_right _ hg)).1
  have hdeg' : ¬(normalizePathL R.toList = ['/', '.', '/'] ∧ rest = []) := by
    rintro ⟨h1, h2⟩
    exact hdeg ⟨h1, by rw [← hrest, h2, List.append_nil]⟩
  have hrestLastOr : rest = [] ∨ rest.getLast? = some '/' := by
    cases hr0 : rest with
    | nil => exact Or.inl rfl
    | cons e v =>
      right
      rw [← hr0]
      rw [List.getLast?_append_of_ne_nil (normalizePathL L.toList)
        (by rw [hr0]; simp)] at hnplast
      exact hnplast
  have hbuild : buildRemote ⟨L, R⟩ (normalizePathL L.toList ++ rest)
      (normalizePathL L.toList) =
        if normalizePathL R.toList = [] then '/' :: rest
        else normalizePathL R.toList ++ rest :=
    buildRemote_eq ⟨L, R⟩ (normalizePathL L.toList) (normalizePathL R.toList)
      rest rfl hRnBS hRnDS hRnLastOr hrestBS hrestDS hrestHead hdotsrest hdeg'
  have hrLC : NormCanon (if normalizePathL R.toList = [] then '/' :: rest
      else normalizePathL R.toList ++ rest) :=
    glued_canon (normalizePathL R.toList) rest hRnBS hRnDS hRnLastOr hrestBS
      hrestDS hrestHead hrestLastOr
  have hrLne : (if normalizePathL R.toList = [] then '/' :: rest
      else normalizePathL R.toList ++ rest) ≠ [] := by
    split
    · simp
    · next hne => exact fun hcon => hne ((List.append_eq_nil.mp hcon).1)
  have hpreR : (normalizePathL R.toList).isPrefixOf
      (if normalizePathL R.toList = [] then '/' :: rest
        else normalizePathL R.toList ++ rest) = true := by
    apply List.isPrefixOf_iff_prefix.mpr
    split
    · next hnil => rw [hnil]; exact List.nil_prefix
    · exact List.prefix_append _ rest
  have hdropL : (if normalizePathL R.toList = [] then '/' :: rest
      else normalizePathL R.toList ++ rest).drop
        (normalizePathL R.toList).length =
      (if normalizePathL R.toList = [] then '/' :: rest else rest) := by
    by_cases hnil : normalizePathL R.toList = []
    · rw [if_pos hnil, if_pos hnil, hnil]
      rfl
    · rw [if_neg hnil, if_neg hnil, List.drop_left]
  have hjoin : normalizePathL (posixJoinL (normalizePathL L.toList)
      (if normalizePathL R.toList = [] then '/' :: rest else rest)) =
        normalizePathL L.toList ++ rest :=
    join_normalize (normalizePathL L.toList) rest _ hLnlast hnplast hnpC
      hnpDS hdots (by
        split
        · exact Or.inr rfl
        · exact Or.inl rfl)
  rw [convertLocal_single L R nm cwd p hp hpre, ← hrest, hbuild,
    Option.some_bind]
  rw [convertRemote_single L R nm cwd _ hrLne (normalizePathL_fixed hrLC)
    hpreR, hdropL, hjoin, hrest]
  rfl

/-- C2 witness: the amended round trip at the concrete mapping `{/a, /r}`
and input `/a/x`. -/
theorem c2_round_trip_witness :
    (("/a" : String) ≠ "" ∧ ("/a/x" : String) ≠ "" ∧
      (normalizePathL "/a".toList).isPrefixOf
        (normalizePathL "/a/x".toList) = true ∧
      (normalizePathL "/a/x".toList).take 2 ≠ ['/', '/'] ∧
      (normalizePathL "/r".toList).take 2 ≠ ['/', '/'] ∧
      (∀ g ∈ segsOf (normalizePathL "/a/x".toList),
        g ≠ ['.'] ∧ g ≠ ['.', '.']) ∧
      ¬(normalizePathL "/r".toList = ['/', '.', '/'] ∧
        normalizePathL "/a/x".toList = normalizePathL "/a".toList)) ∧
    (convertLocalPathToRemote "/a/x" ⟨"s", [⟨"/a", "/r"⟩], none, ""⟩).bind
        (fun r => convertRemotePathToLocal r ⟨"s", [⟨"/a", "/r"⟩], none, ""⟩) =
      some (normalizePath "/a/x") :=
  ⟨⟨by decide, by decide, by decide, by decide, by decide, by decide,
      by decide⟩,
    c2_round_trip "/a" "/r" "s" "" "/a/x" (by decide) (by decide) (by decide)
      (by decide) (by decide) (by decide) (by decide)⟩

